import Mathlib

/-!
Verification development for the place-capability-graph (PCG) analysis engine.

The definitions below are a shallow embedding of the engine's core data
model and operations: the capability lattice, the place model, the
per-place capability map and its join (`PlaceCapabilities.join`), the
per-local capability partition and its join (`CapabilityProjections.join`,
`CapabilityLocal.join`), the place expand/collapse repacking operations
(`Place.expand`, `Place.collapse`), the region-outlives reachability
query (`outlives`), the call-abstraction construction
(`constructRegionAbstraction`), and the coupling-graph construction
(`addEdgesFrom`).  Definitions translated from the repository cite the
source file; helpers whose implementation is not part of the sources are
modelled from the specification and say so in their doc comment.
-/

set_option linter.unusedVariables false

/-- Modelled from the spec: the capability permission levels for a place,
ordered `None < Read < Write < Exclusive` (spec section 3).  The variant
`noneC` denotes a place whose location exists but is currently fully lent
out. -/
inductive CapabilityKind : Type where
  | noneC : CapabilityKind
  | read : CapabilityKind
  | write : CapabilityKind
  | exclusive : CapabilityKind
deriving DecidableEq, Repr

/-- Numeric height of a capability in the chain `None < Read < Write < Exclusive`. -/
def CapabilityKind.toNat : CapabilityKind → Nat
  | .noneC => 0
  | .read => 1
  | .write => 2
  | .exclusive => 3

/-- Modelled from the spec: the partial comparison between two capabilities.
The spec orders the four levels in a single chain, so the comparison is
always defined. -/
def CapabilityKind.capCmp (a b : CapabilityKind) : Option Ordering :=
  some (compare a.toNat b.toNat)

/-- Modelled from the spec: the meet of two capabilities is their lattice
minimum, or removal (`none`) if they are not comparable (spec section 3). -/
def CapabilityKind.minimum (a b : CapabilityKind) : Option CapabilityKind :=
  match a.capCmp b with
  | some Ordering.lt => some a
  | some Ordering.eq => some a
  | some Ordering.gt => some b
  | none => none

/-- Strict order on capabilities, used for the `>` comparisons in the joins. -/
def CapabilityKind.lt (a b : CapabilityKind) : Bool :=
  a.toNat < b.toNat

instance : LE CapabilityKind := ⟨fun a b => a.toNat ≤ b.toNat⟩

instance (a b : CapabilityKind) : Decidable (a ≤ b) :=
  inferInstanceAs (Decidable (a.toNat ≤ b.toNat))

/-- Modelled from the spec: a place projection element — field access,
dereference, constant index, index, subslice, downcast to a variant, or an
opaque cast (spec section 3 and the projection kinds matched in
`src/utils/repacker.rs`). -/
inductive Proj : Type where
  | field (i : Nat) : Proj
  | deref : Proj
  | constantIndex (offset min_length : Nat) (from_end : Bool) : Proj
  | index : Proj
  | subslice : Proj
  | downcast (v : Nat) : Proj
  | opaqueCast : Proj
deriving DecidableEq, Repr

/-- Modelled from the spec: a place is a root local plus an ordered list of
projections (spec section 3). -/
structure Place : Type where
  locl : Nat
  projection : List Proj
deriving DecidableEq, Repr

/-- Modelled from the spec: the four-way relation between two places —
one is a prefix of the other, they are equal, overlapping-but-incomparable
("Both"), or disjoint (spec section 3). -/
inductive PlaceOrdering : Type where
  | pre : PlaceOrdering
  | equal : PlaceOrdering
  | suf : PlaceOrdering
  | both : PlaceOrdering
deriving DecidableEq, Repr

/-- Modelled from the spec: whether two distinct projection elements still
overlap in memory — different enum variants of one place overlap, as do
constant indices counted from different ends (spec section 3). -/
def Proj.overlaps : Proj → Proj → Bool
  | Proj.downcast a, Proj.downcast b => a ≠ b
  | Proj.constantIndex _ _ fe1, Proj.constantIndex _ _ fe2 => fe1 ≠ fe2
  | _, _ => false

/-- Modelled from the spec: comparison of two projection lists sharing a
root, yielding the `PlaceOrdering` or `none` for disjoint places. -/
def Place.cmpProj : List Proj → List Proj → Option PlaceOrdering
  | [], [] => some PlaceOrdering.equal
  | [], _ :: _ => some PlaceOrdering.pre
  | _ :: _, [] => some PlaceOrdering.suf
  | a :: as, b :: bs =>
    if a = b then Place.cmpProj as bs
    else if Proj.overlaps a b then some PlaceOrdering.both else none

/-- Modelled from the spec: the partial comparison between two places
(spec section 3): prefix, equal, suffix, overlapping ("Both"), or `none`
for disjoint places (different locals or diverging disjoint projections). -/
def Place.cmp (p q : Place) : Option PlaceOrdering :=
  if p.locl = q.locl then Place.cmpProj p.projection q.projection else none

/-- Boolean prefix test on projection lists. -/
def Place.projPre : List Proj → List Proj → Bool
  | [], _ => true
  | _ :: _, [] => false
  | a :: as, b :: bs => if a = b then Place.projPre as bs else false

/-- Modelled from the spec: `p` is a prefix of `q` when they share the root
local and `p`'s projections are an initial segment of `q`'s. -/
def Place.isPrefixOf (p q : Place) : Bool :=
  decide (p.locl = q.locl) && Place.projPre p.projection q.projection

/-- A capability map: the association list underlying both
`PlaceCapabilities` and `CapabilityProjections` (both are hash maps from
places to capabilities in the sources). -/
abbrev PMap : Type := List (Place × CapabilityKind)

/-- Lookup in a capability map (first matching key). -/
def PMap.get : PMap → Place → Option CapabilityKind
  | [], _ => none
  | (q, c) :: rest, p => if q = p then some c else PMap.get rest p

/-- Map insert returning the map together with the previous value at the
key, mirroring the hash-map `insert` used by `PlaceCapabilities::insert`
(src/pcg/place_capabilities.rs, lines 49-52). -/
def PMap.insertGetOld : PMap → Place → CapabilityKind → PMap × Option CapabilityKind
  | [], p, c => ([(p, c)], none)
  | (q, c0) :: rest, p, c =>
    if q = p then ((q, c) :: rest, some c0)
    else
      let r := PMap.insertGetOld rest p c
      ((q, c0) :: r.1, r.2)

/-- Map removal (first matching key), mirroring the hash-map `remove` used
by `PlaceCapabilities::remove` (src/pcg/place_capabilities.rs, lines 54-56). -/
def PMap.erase : PMap → Place → PMap
  | [], _ => []
  | (q, c0) :: rest, p => if q = p then rest else (q, c0) :: PMap.erase rest p

/-- Key membership in a capability map. -/
def PMap.containsKey (m : PMap) (p : Place) : Bool :=
  (PMap.get m p).isSome

/-- The keys of a capability map are pairwise distinct. -/
def PMap.NodupKeys (m : PMap) : Prop :=
  (m.map Prod.fst).Nodup

instance (m : PMap) : Decidable (PMap.NodupKeys m) :=
  inferInstanceAs (Decidable (List.Nodup _))

/-- One step of the per-place capability join: fold the entry
`(place, otherCap)` of the other map into the accumulated map and
changed flag; translated from `PlaceCapabilities::join`
(src/pcg/place_capabilities.rs, lines 66-85). -/
def PlaceCapabilities.joinStep (st : PMap × Bool) (pc : Place × CapabilityKind) :
    PMap × Bool :=
  let m := st.1
  let changed := st.2
  let place := pc.1
  let otherCap := pc.2
  match PMap.get m place with
  | some selfCap =>
    match CapabilityKind.minimum selfCap otherCap with
    | some c =>
      let r := PMap.insertGetOld m place c
      (r.1, changed || decide (r.2 ≠ some c))
    | none => (PMap.erase m place, true)
  | none =>
    let r := PMap.insertGetOld m place otherCap
    (r.1, true)

/-- The per-place capability join, translated from
`PlaceCapabilities::join` (src/pcg/place_capabilities.rs, lines 66-85):
iterate over the other side's entries and fold each into the receiver,
tracking whether anything changed. -/
def PlaceCapabilities.join (self other : PMap) : PMap × Bool :=
  other.foldl PlaceCapabilities.joinStep (self, false)

/-- Pointwise specification of the per-place join: the meet where both
sides are defined, the defined side otherwise. -/
def joinSpecAt (a b : Option CapabilityKind) : Option CapabilityKind :=
  match a, b with
  | some x, some y => CapabilityKind.minimum x y
  | some x, none => some x
  | none, some y => some y
  | none, none => none

/-- Concrete root place of local 0, used in witnesses. -/
def wPlace : Place := Place.mk 0 []

/-- A model of the types relevant to place expansion: ADTs (a list of
variants, each a list of field types), tuples, references, raw pointers,
boxes, arrays, and an opaque base type.  Modelled from the spec: the type
oracle is an external collaborator (spec section 6); the constructors are
the type kinds matched in src/utils/repacker.rs. -/
inductive Ty : Type where
  | unitTy : Ty
  | adt (variants : List (List Ty)) : Ty
  | tuple (fields : List Ty) : Ty
  | ref (m : Bool) (t : Ty) : Ty
  | rawPtr (m : Bool) (t : Ty) : Ty
  | boxTy (t : Ty) : Ty
  | array (t : Ty) (n : Nat) : Ty

/-- A place type: a type together with an optional downcast variant index,
as the external `PlaceTy`. -/
structure PlaceTy : Type where
  ty : Ty
  variant_index : Option Nat

/-- One step of type projection along a projection element, following the
external `PlaceTy::projection_ty` used by `Place::projection_tys`
(src/utils/repacker.rs, lines 552-562); ill-typed projections yield
`none`. -/
def PlaceTy.step : PlaceTy → Proj → Option PlaceTy
  | ⟨Ty.adt variants, vi⟩, Proj.field i => do
    let flds ← variants[vi.getD 0]?
    let t ← flds[i]?
    some ⟨t, none⟩
  | ⟨Ty.tuple flds, _⟩, Proj.field i => do
    let t ← flds[i]?
    some ⟨t, none⟩
  | ⟨Ty.adt variants, _⟩, Proj.downcast v =>
    if v < variants.length then some ⟨Ty.adt variants, some v⟩ else none
  | ⟨Ty.ref _ t, _⟩, Proj.deref => some ⟨t, none⟩
  | ⟨Ty.rawPtr _ t, _⟩, Proj.deref => some ⟨t, none⟩
  | ⟨Ty.boxTy t, _⟩, Proj.deref => some ⟨t, none⟩
  | ⟨Ty.array t _, _⟩, Proj.constantIndex _ _ _ => some ⟨t, none⟩
  | ⟨Ty.array t _, _⟩, Proj.index => some ⟨t, none⟩
  | ⟨Ty.array t _, _⟩, Proj.subslice => some ⟨t, none⟩
  | _, _ => none

/-- The type of a place given the typing of the root locals, as
`Place::ty` (src/utils/repacker.rs, lines 464-466). -/
def placeTyOf (Γ : Nat → Ty) (p : Place) : Option PlaceTy :=
  p.projection.foldlM PlaceTy.step ⟨Γ p.locl, none⟩

/-- Translated from `ProjectionRefKind` (src/utils/repacker.rs,
lines 29-52). -/
inductive ProjectionRefKind : Type where
  | ref (m : Bool) : ProjectionRefKind
  | rawPtr (m : Bool) : ProjectionRefKind
  | boxKind : ProjectionRefKind
  | other : ProjectionRefKind
deriving DecidableEq, Repr

/-- Extend a place by one projection element, as `Place::mk_place_elem`
(src/utils/repacker.rs, lines 582-587). -/
def Place.mkElem (p : Place) (e : Proj) : Place :=
  Place.mk p.locl (p.projection ++ [e])

/-- Translated from `Place::expand_field` (src/utils/repacker.rs,
lines 349-429): the places for every field of the struct, tuple or
downcast variant, omitting `without_field`; a reference expands to its
dereference. -/
def Place.expand_field (Γ : Nat → Ty) (p : Place) (without_field : Option Nat) :
    Option (List Place) := do
  let typ ← placeTyOf Γ p
  match typ.ty with
  | Ty.adt variants => do
    let flds ← variants[(typ.variant_index.getD 0)]?
    some ((List.range flds.length).filterMap (fun index =>
      if some index ≠ without_field then some (p.mkElem (Proj.field index)) else none))
  | Ty.tuple flds =>
    some ((List.range flds.length).filterMap (fun index =>
      if some index ≠ without_field then some (p.mkElem (Proj.field index)) else none))
  | Ty.ref _ _ => some [p.mkElem Proj.deref]
  | _ => none

/-- The dereference case of `Place::expand_one_level`: the projection kind
determined by the dereferenced type (src/utils/repacker.rs,
lines 318-327). -/
def Place.derefKind : Ty → Option (List Place × ProjectionRefKind)
  | Ty.ref m _ => some ([], ProjectionRefKind.ref m)
  | Ty.rawPtr m _ => some ([], ProjectionRefKind.rawPtr m)
  | Ty.boxTy _ => some ([], ProjectionRefKind.boxKind)
  | _ => none

/-- The per-element match of `Place::expand_one_level`
(src/utils/repacker.rs, lines 284-333): the sibling places split off by
taking the given projection element from `p`, and the kind of projection
taken. -/
def Place.expand_one_level_others (Γ : Nat → Ty) (p : Place) :
    Proj → Option (List Place × ProjectionRefKind)
  | Proj.field projected_field =>
    (Place.expand_field Γ p (some projected_field)).map
      (fun other => (other, ProjectionRefKind.other))
  | Proj.constantIndex offset min_length from_end =>
    let lo := if from_end then 1 else 0
    let hi := if from_end then min_length + 1 else min_length
    if lo ≤ offset ∧ offset < hi then
      some (((List.range hi).filter
          (fun i => decide (lo ≤ i) && decide (i ≠ offset))).map
        (fun i => p.mkElem (Proj.constantIndex i min_length from_end)),
        ProjectionRefKind.other)
    else none
  | Proj.deref => do
    let typ ← placeTyOf Γ p
    Place.derefKind typ.ty
  | Proj.index => some ([], ProjectionRefKind.other)
  | Proj.subslice => some ([], ProjectionRefKind.other)
  | Proj.downcast _ => some ([], ProjectionRefKind.other)
  | Proj.opaqueCast => some ([], ProjectionRefKind.other)

/-- Translated from `Place::expand_one_level` (src/utils/repacker.rs,
lines 271-343): extend `p` one level toward `guide`, returning the new
place, the sibling places split off by the expansion, and the kind of
projection taken. -/
def Place.expand_one_level (Γ : Nat → Ty) (p guide : Place) :
    Option (Place × List Place × ProjectionRefKind) := do
  let elem ← guide.projection[p.projection.length]?
  let r ← Place.expand_one_level_others Γ p elem
  some (Place.mk p.locl (p.projection ++ [elem]), r.1, r.2)

/-- Auxiliary recursion for `Place.expand`: repeatedly expand one level
toward the target until the projection lengths agree; the fuel is the
length difference, which `expand_one_level` decreases by one each step. -/
def Place.expandAux (Γ : Nat → Ty) :
    Nat → Place → Place →
    Option (List (Place × Place × ProjectionRefKind) × List Place)
  | 0, _, _ => some ([], [])
  | Nat.succ n, p, tgt => do
    let r ← Place.expand_one_level Γ p tgt
    let rest ← Place.expandAux Γ n r.1 tgt
    some ((p, r.1, r.2.2) :: rest.1, r.2.1 ++ rest.2)

/-- Translated from `Place::expand` (src/utils/repacker.rs,
lines 211-229): unroll `p` level by level toward `tgt` (a place it must be
a prefix of — the source asserts this), collecting the chain of expansions
and the set of split-off sibling places. -/
def Place.expand (Γ : Nat → Ty) (p tgt : Place) :
    Option (List (Place × Place × ProjectionRefKind) × List Place) :=
  if Place.isPrefixOf p tgt then
    Place.expandAux Γ (tgt.projection.length - p.projection.length) p tgt
  else none

/-- Auxiliary recursion for `Place.collapse`, mirroring the worklist loop
of `Place::collapse` (src/utils/repacker.rs, lines 234-264).  The
`guide_places` vector is a stack (the source pushes and pops at the end);
the source's hash set `from` is modelled as a list searched in order.
Every iteration removes one element of `frm` (or stops), so the fuel
`frm.length + 1` supplied by `Place.collapse` never runs out. -/
def Place.collapseAux (G : Nat → Ty) :
    Nat → List (Place × Place × ProjectionRefKind) → List Place → List Place →
    Option (List (Place × Place × ProjectionRefKind) × List Place)
  | 0, _, _, _ => none
  | _ + 1, collapsed, [], frm => some (collapsed.reverse, frm)
  | fuel + 1, collapsed, guide_place :: stack, frm =>
    if guide_place ∈ frm then
      Place.collapseAux G fuel collapsed stack (frm.erase guide_place)
    else
      match frm.find? (fun pl => Place.isPrefixOf guide_place pl) with
      | none => none
      | some expand_guide =>
        match Place.expand G guide_place expand_guide with
        | none => none
        | some r =>
          Place.collapseAux G fuel (collapsed ++ r.1) (r.2.reverse ++ stack)
            (frm.erase expand_guide)

/-- Translated from `Place::collapse` (src/utils/repacker.rs,
lines 234-264): try to collapse all places in `frm` by following the
guide place `p`; returns the expansions performed (in collapse order) and
the places of `frm` left unconsumed. -/
def Place.collapse (G : Nat → Ty) (p : Place) (frm : List Place) :
    Option (List (Place × Place × ProjectionRefKind) × List Place) :=
  Place.collapseAux G (frm.length + 1) [] [p] frm

/-- Modelled from the spec: the deepest common ancestor of two places with
the same root local (spec section 3, the "common ancestor place" of
section 4.1). -/
def Place.commonProj : List Proj → List Proj → List Proj
  | a :: as, b :: bs => if a = b then a :: Place.commonProj as bs else []
  | _, _ => []

/-- Modelled from the spec: the common prefix place of two places. -/
def Place.commonPrefixOf (p q : Place) : Place :=
  Place.mk p.locl (Place.commonProj p.projection q.projection)

/-- Modelled from the spec: `joinable_to` gives the deepest point toward
`tgt` down to which a place may be expanded during a join (spec
section 4.1).  The spec bounds expansion only by the capability condition,
which the join checks separately, so the deepest common point is `tgt`
itself. -/
def Place.joinableTo (frm tgt : Place) : Place := tgt

/-- Modelled from the spec: all tracked places of the partition related to
`place` — prefix, equal, suffix, or overlapping (spec section 4.1,
`find_all_related`). -/
def findAllRelated (s : PMap) (place : Place) : List (Place × CapabilityKind) :=
  s.filter (fun e => (Place.cmp e.1 place).isSome)

/-- Modelled from the spec: the related set's single place (the prefix
case of the join concerns exactly one related tracked place,
`get_only_place`). -/
def getOnlyPlace : List (Place × CapabilityKind) → Option Place
  | [e] => some e.1
  | _ => none

/-- Modelled from the spec: expanding a tracked place `frm` of an
allocated partition toward `tgt` replaces the key `frm` by the places
produced by the place-level expansion — the target and all split-off
siblings — each keeping `frm`'s capability (spec sections 2 and 4.1). -/
def CapabilityProjections.expand (Γ : Nat → Ty) (s : PMap) (frm tgt : Place) :
    Option PMap := do
  let c ← PMap.get s frm
  let r ← Place.expand Γ frm tgt
  let s1 := PMap.erase s frm
  let s2 := (PMap.insertGetOld s1 tgt c).1
  some (r.2.foldl (fun m pl => (PMap.insertGetOld m pl c).1) s2)

/-- Modelled from the spec: collapsing the tracked places `frm` back to
their common place `tgt` removes them and stores `tgt` with the meet of
the removed capabilities; the place-level collapse must succeed (spec
sections 4.1 and 8). -/
def CapabilityProjections.collapse (Γ : Nat → Ty) (s : PMap) (frm : List Place)
    (tgt : Place) : Option PMap := do
  let _ ← Place.collapse Γ tgt frm
  let caps := frm.filterMap (PMap.get s)
  let cap := caps.foldl (fun a c =>
    match CapabilityKind.minimum a c with
    | some mn => mn
    | none => a) CapabilityKind.exclusive
  let s1 := frm.foldl PMap.erase s
  some (PMap.insertGetOld s1 tgt cap).1

/-- Modelled from the spec: `update_cap` updates the capability stored for
a place, overwriting the entry (spec section 4.1: the capability at the
reconciled place is set to what the other side grants). -/
def CapabilityProjections.updateCap (s : PMap) (p : Place) (c : CapabilityKind) : PMap :=
  (PMap.insertGetOld s p c).1

/-- Final step of one related-place iteration of the capability-summary
join: if a final place was computed, downgrade its capability to the
other side's when the stored one is greater
(src/free_pcs/impl/join_semi_lattice.rs, lines 118-124). -/
def cpJoinFinal (s : PMap) (changed : Bool) (fin : Option Place)
    (kind : CapabilityKind) : Option (PMap × Bool) :=
  match fin with
  | none => some (s, changed)
  | some pl => do
    let c ← PMap.get s pl
    if CapabilityKind.lt kind c then
      some (CapabilityProjections.updateCap s pl kind, true)
    else some (s, changed)

/-- One iteration of the suffix-case inner loop of the capability-summary
join (src/free_pcs/impl/join_semi_lattice.rs, lines 83-106): skip places
already collapsed away, collapse the related places above the collapse
target, and downgrade the capability when the other side grants less. -/
def cpJoinSuffixStep (Γ : Nat → Ty) (place : Place) (kind : CapabilityKind)
    (related : List (Place × CapabilityKind)) (st : PMap × Bool)
    (pk : Place × CapabilityKind) : Option (PMap × Bool) :=
  let s := st.1
  let changed := st.2
  let p := pk.1
  let k := pk.2
  if ¬ PMap.containsKey s p then some (s, changed)
  else
    let collapseTo :=
      if kind ≠ CapabilityKind.exclusive then place else Place.joinableTo place p
    if collapseTo ≠ p then do
      let frm := (related.map Prod.fst).filter (fun f => Place.isPrefixOf collapseTo f)
      let s2 ← CapabilityProjections.collapse Γ s frm collapseTo
      if CapabilityKind.lt kind k then
        some (CapabilityProjections.updateCap s2 collapseTo kind, true)
      else some (s2, true)
    else
      if CapabilityKind.lt kind k then
        some (CapabilityProjections.updateCap s collapseTo kind, true)
      else some (s, changed)

/-- One iteration over a related tracked place of the capability-summary
join (src/free_pcs/impl/join_semi_lattice.rs, lines 65-125), dispatching
on the place ordering: prefix (expand the tracked place when Exclusive),
equal, suffix (collapse and downgrade), or overlapping (collapse to the
common prefix). -/
def cpJoinRelated (Γ : Nat → Ty) (place : Place) (kind : CapabilityKind)
    (related : List (Place × CapabilityKind)) (st : PMap × Bool)
    (frmE : Place × CapabilityKind) : Option (PMap × Bool) := do
  let s := st.1
  let changed := st.2
  let ord ← Place.cmp frmE.1 place
  match ord with
  | PlaceOrdering.pre => do
    let frm ← getOnlyPlace related
    let selfCapFrm ← PMap.get s frm
    let joinable_place :=
      if selfCapFrm ≠ CapabilityKind.exclusive then frm
      else Place.joinableTo frm place
    if ¬ (Place.isPrefixOf frm joinable_place) then none
    else if joinable_place ≠ frm then do
      let s2 ← CapabilityProjections.expand Γ s frm joinable_place
      cpJoinFinal s2 true (some joinable_place) kind
    else cpJoinFinal s changed (some joinable_place) kind
  | PlaceOrdering.equal => cpJoinFinal s changed (some place) kind
  | PlaceOrdering.suf => do
    let r ← related.foldlM (cpJoinSuffixStep Γ place kind related) (s, changed)
    cpJoinFinal r.1 r.2 none kind
  | PlaceOrdering.both => do
    let cp := (related.map Prod.fst).foldl Place.commonPrefixOf place
    let s2 ← CapabilityProjections.collapse Γ s (related.map Prod.fst) cp
    cpJoinFinal s2 true (some cp) kind

/-- One iteration over an entry of the other summary in the
capability-summary join (src/free_pcs/impl/join_semi_lattice.rs,
lines 63-126): find the tracked places related to the entry's place and
reconcile each. -/
def cpJoinStep (Γ : Nat → Ty) (st : PMap × Bool) (e : Place × CapabilityKind) :
    Option (PMap × Bool) :=
  let related := findAllRelated st.1 e.1
  related.foldlM (cpJoinRelated Γ e.1 e.2 related) st

/-- The capability-summary join for one local's partition, translated from
`CapabilityProjections::join` (src/free_pcs/impl/join_semi_lattice.rs,
lines 55-129): an empty receiver is lattice bottom and copies the other
side (reporting a change); otherwise every entry of the other side is
reconciled against the receiver's related tracked places. -/
def CapabilityProjections.join (Γ : Nat → Ty) (self other : PMap) :
    Option (PMap × Bool) :=
  if self.isEmpty then some (other, true)
  else other.foldlM (cpJoinStep Γ) (self, false)

/-- Translated from `CapabilityLocal` — the allocation state of one local
(used by src/free_pcs/impl/join_semi_lattice.rs, lines 38-53). -/
inductive CapabilityLocal : Type where
  | unallocated : CapabilityLocal
  | allocated (cp : PMap) : CapabilityLocal
deriving DecidableEq, Repr

/-- Translated from `CapabilityLocal::join`
(src/free_pcs/impl/join_semi_lattice.rs, lines 38-53): two unallocated
sides report no change; two allocated sides join their partitions; an
allocated receiver joined with an unallocated side becomes unallocated
(a change); an unallocated receiver stays unallocated with no change. -/
def CapabilityLocal.join (Γ : Nat → Ty) :
    CapabilityLocal → CapabilityLocal → Option (CapabilityLocal × Bool)
  | CapabilityLocal.unallocated, CapabilityLocal.unallocated =>
    some (CapabilityLocal.unallocated, false)
  | CapabilityLocal.allocated to_places, CapabilityLocal.allocated from_places => do
    let r ← CapabilityProjections.join Γ to_places from_places
    some (CapabilityLocal.allocated r.1, r.2)
  | CapabilityLocal.allocated _, CapabilityLocal.unallocated =>
    some (CapabilityLocal.unallocated, true)
  | CapabilityLocal.unallocated, CapabilityLocal.allocated _ =>
    some (CapabilityLocal.unallocated, false)

/-- Validity of one local's tracked-place partition: distinct tracked
places are pairwise unrelated (disjoint), the frontier invariant of spec
sections 3 and 8. -/
def PMap.PairwiseUnrelated (m : PMap) : Prop :=
  m.Pairwise (fun e1 e2 => Place.cmp e1.1 e2.1 = none)

instance (m : PMap) : Decidable (PMap.PairwiseUnrelated m) :=
  inferInstanceAs (Decidable (List.Pairwise _ m))

/-- Typing context for the commutativity counterexample: every local is a
two-field tuple. -/
def cexTupleTy : Nat → Ty := fun _ => Ty.tuple [Ty.unitTy, Ty.unitTy]

/-- The root place of local 0. -/
def cexRoot : Place := Place.mk 0 []

/-- The first tuple field of local 0. -/
def cexF : Place := Place.mk 0 [Proj.field 0]

/-- The second tuple field of local 0. -/
def cexG : Place := Place.mk 0 [Proj.field 1]

/-- Counterexample state tracking the whole local at Write. -/
def cexA : PMap := [(cexRoot, CapabilityKind.write)]

/-- Counterexample state tracking the two fields at Exclusive and Read. -/
def cexB : PMap := [(cexF, CapabilityKind.exclusive), (cexG, CapabilityKind.read)]

/-- A model of the signature types scanned for lifetimes by the borrow
visitor: an opaque base type, references carrying a region and
mutability, and pairs for nesting.  Modelled from the spec: the type and
signature queries are external collaborators (spec section 6). -/
inductive SigTy : Type where
  | base : SigTy
  | refS (r : Nat) (m : Bool) (t : SigTy) : SigTy
  | pairS (a b : SigTy) : SigTy
deriving DecidableEq, Repr

/-- Translated from `extract_lifetimes` (src/borrows/borrows_visitor.rs,
lines 590-594): collect every region occurring in a type, in visit
order. -/
def extractLifetimes : SigTy → List Nat
  | SigTy.base => []
  | SigTy.refS r _ t => r :: extractLifetimes t
  | SigTy.pairS a b => extractLifetimes a ++ extractLifetimes b

/-- Translated from `outlives_in_param_env` (src/borrows/borrows_visitor.rs,
lines 300-320): two lifetimes satisfy the outlives requirement when they
are equal or the caller bounds contain the outlives clause. -/
def outlivesInParamEnv (inputLifetime outputLifetime : Nat)
    (paramEnv : List (Nat × Nat)) : Bool :=
  if inputLifetime = outputLifetime then true
  else paramEnv.any (fun b => b.1 = inputLifetime && b.2 = outputLifetime)

/-- An abstraction edge target: a (possibly dereferenced) place or a
region projection of a place, as `AbstractionTarget`
(src/borrows/borrows_visitor.rs). -/
inductive AbsTarget : Type where
  | place (base : Nat) (derefed : Bool) : AbsTarget
  | regionProjection (base : Nat) (idx : Nat) : AbsTarget
deriving DecidableEq, Repr

/-- An abstraction block edge: input targets mapped to output targets, as
`AbstractionBlockEdge` (src/borrows/borrows_visitor.rs). -/
structure AbsEdge : Type where
  inputs : List AbsTarget
  outputs : List AbsTarget
deriving DecidableEq, Repr

/-- Translated from `BorrowsVisitor::matches_for_input_lifetime`
(src/borrows/borrows_visitor.rs, lines 262-292): the output targets that
an input lifetime must flow into — the dereferenced output place when the
output is a mutable reference whose region the input outlives, plus a
region projection for every output lifetime the input outlives. -/
def matchesForInputLifetime (inputLifetime : Nat) (paramEnv : List (Nat × Nat))
    (outputTy : SigTy) (outputPlace : Nat) : List AbsTarget :=
  let step :=
    match outputTy with
    | SigTy.refS outputLifetime true t =>
      ((if outlivesInParamEnv inputLifetime outputLifetime paramEnv then
          [AbsTarget.place outputPlace true]
        else []), t)
    | t => ([], t)
  step.1 ++
    ((extractLifetimes step.2).enum.filterMap (fun il =>
      if outlivesInParamEnv inputLifetime il.2 paramEnv then
        some (AbsTarget.regionProjection outputPlace il.1)
      else none))

/-- One input's contribution to the abstraction edges: the synthetic
mutable-reference edge plus an edge per nested input lifetime; translated
from the loop body of
`BorrowsVisitor::construct_region_abstraction_if_necessary`
(src/borrows/borrows_visitor.rs, lines 189-245). -/
def constructInputEdges (paramEnv : List (Nat × Nat)) (sigOutput : SigTy)
    (destination : Nat) (idx : Nat) (ty : SigTy) (inputPlace : Nat) :
    List (Nat × AbsEdge) :=
  let mutEdgesAndTy :=
    match ty with
    | SigTy.refS region true t =>
      ((matchesForInputLifetime region paramEnv sigOutput destination).map
        (fun output =>
          (idx, AbsEdge.mk [AbsTarget.place inputPlace true] [output])), t)
    | SigTy.refS region false t => (([] : List (Nat × AbsEdge)), t)
    | t => ([], t)
  mutEdgesAndTy.1 ++
    ((extractLifetimes mutEdgesAndTy.2).enum.foldl (fun acc il =>
      acc ++ (matchesForInputLifetime il.2 paramEnv sigOutput destination).map
        (fun output =>
          (idx, AbsEdge.mk [AbsTarget.regionProjection inputPlace il.1] [output])))
      [])

/-- Translated from
`BorrowsVisitor::construct_region_abstraction_if_necessary`
(src/borrows/borrows_visitor.rs, lines 163-260): if the output type
exposes no lifetimes, return immediately with no abstraction; otherwise
collect the edges contributed by every argument with a place, and add an
abstraction only when at least one edge was produced.  `none` means no
abstraction edge is added to the borrow graph. -/
def constructRegionAbstraction (sigInputs : List SigTy) (sigOutput : SigTy)
    (argPlaces : List (Option Nat)) (destination : Nat)
    (paramEnv : List (Nat × Nat)) : Option (List (Nat × AbsEdge)) :=
  if (extractLifetimes sigOutput).isEmpty then none
  else
    let edges := sigInputs.enum.foldl (fun acc it =>
      match argPlaces[it.1]? with
      | some (some inputPlace) =>
        acc ++ constructInputEdges paramEnv sigOutput destination it.1 it.2 inputPlace
      | _ => acc) []
    if edges.isEmpty then none else some edges

/-- The effect of a call terminator on the borrow graph's abstraction
edges: append the constructed abstraction if one was produced, leave the
graph unchanged otherwise (src/borrows/borrows_visitor.rs, lines 249-259
and 359-377). -/
def applyCallAbstraction (graph : List (List (Nat × AbsEdge)))
    (sigInputs : List SigTy) (sigOutput : SigTy) (argPlaces : List (Option Nat))
    (destination : Nat) (paramEnv : List (Nat × Nat)) :
    List (List (Nat × AbsEdge)) :=
  match constructRegionAbstraction sigInputs sigOutput argPlaces destination paramEnv with
  | none => graph
  | some edges => edges :: graph

/-- The nodes with an edge pointing to `t` in the region-projection graph,
as `coupling::Graph::nodes_pointing_to` (used by
src/borrows/coupling_graph_constructor.rs, line 77).  Nodes are numbered;
an edge `(a, b)` means `a` points to `b`. -/
def nodesPointingTo (bg : List (Nat × Nat)) (t : Nat) : List Nat :=
  (bg.filter (fun e => e.2 = t)).map Prod.fst

/-- Translated from `CouplingGraphConstructor::add_edges_from`
(src/borrows/coupling_graph_constructor.rs, lines 71-96), with an explicit
fuel modelling the call stack: the source recursion keeps no visited set,
so fuel is the only way to make the function total in the embedding; a
`none` result at every fuel corresponds to the source recursing without
bound.  `transparent` answers whether a node is an old place or its region
is not live at block entry (such nodes are recursed through). -/
def addEdgesFrom (bg : List (Nat × Nat)) (transparent : Nat → Bool) :
    Nat → List (Nat × Nat) → Nat → Nat → Option (List (Nat × Nat))
  | 0, _, _, _ => none
  | fuel + 1, couplingGraph, bottomConnect, upperCandidate =>
    let nodes := nodesPointingTo bg upperCandidate
    let couplingGraph :=
      if nodes.isEmpty then (upperCandidate, bottomConnect) :: couplingGraph
      else couplingGraph
    nodes.foldlM (fun acc node =>
      if transparent node then addEdgesFrom bg transparent fuel acc bottomConnect node
      else addEdgesFrom bg transparent fuel ((node, bottomConnect) :: acc) node node)
      couplingGraph

/-- The leaf nodes of the region-projection graph (nodes with no outgoing
edge), from which `construct_coupling_graph` starts
(src/borrows/coupling_graph_constructor.rs, lines 98-107). -/
def leafNodes (bg : List (Nat × Nat)) : List Nat :=
  ((bg.map Prod.fst ++ bg.map Prod.snd).dedup).filter
    (fun n => (bg.filter (fun e => e.1 = n)).isEmpty)

/-- Translated from `CouplingGraphConstructor::construct_coupling_graph`
(src/borrows/coupling_graph_constructor.rs, lines 98-107): walk up from
every leaf node of the region-projection graph. -/
def constructCouplingGraph (bg : List (Nat × Nat)) (transparent : Nat → Bool)
    (fuel : Nat) : Option (List (Nat × Nat)) :=
  (leafNodes bg).foldlM (fun acc n => addEdgesFrom bg transparent fuel acc n n) []

/-- A region-projection graph with a cycle: node 0 points to itself and to
the leaf node 1. -/
def cycBg : List (Nat × Nat) := [(0, 0), (0, 1)]

/-- A liveness oracle making every node live and current (opaque). -/
def allLive : Nat → Bool := fun _ => false

/-- The successors pushed for `current` by `BorrowsVisitor::outlives`
(src/borrows/borrows_visitor.rs, lines 150-156): the `sub` component of
every outlives constraint whose `sup` is `current`, in constraint order.
Regions (`RegionVid`) are modelled as naturals and the oracle's
`outlives_constraints()` as the list `cs` of (sup, sub) pairs. -/
def outlivesSucc (cs : List (Nat × Nat)) (current : Nat) : List Nat :=
  (cs.filter (fun c => decide (c.1 = current))).map (fun c => c.2)

/-- Translated from the worklist loop of `BorrowsVisitor::outlives`
(src/borrows/borrows_visitor.rs, lines 140-161).  The source pops `current`
from the end of the `stack` vector; here the list's head is the top of the
stack, so the successor block is pushed reversed to preserve the pop
order.  `visited.insert(current)` returning `true` (freshly inserted) is
the `current ∉ visited` test.  Termination is by the measure below: each
iteration either consumes a stack entry or moves a constraint source out
of the unvisited set — this is exactly the memoization the spec credits
for termination on cyclic constraint sets. -/
def outlivesGo (cs : List (Nat × Nat)) (sub : Nat) :
    List Nat → List Nat → Bool
  | _, [] => false
  | visited, current :: rest =>
    if current = sub then true
    else if hvis : current ∈ visited then
      outlivesGo cs sub visited rest
    else
      outlivesGo cs sub (current :: visited) ((outlivesSucc cs current).reverse ++ rest)
termination_by visited stack =>
  ((cs.map (fun c => c.1)).filter (fun v => decide (v ∉ visited))).length
    * (cs.length + 1) + stack.length
decreasing_by
  · simp only [List.length_cons]
    omega
  · have hpushlen : (outlivesSucc cs current).reverse.length ≤ cs.length := by
      simp only [List.length_reverse, outlivesSucc, List.length_map]
      exact List.length_filter_le _ _
    have hsub : ((cs.map (fun c => c.1)).filter
        (fun v => decide (v ∉ current :: visited))).Sublist
        ((cs.map (fun c => c.1)).filter (fun v => decide (v ∉ visited))) := by
      apply List.monotone_filter_right
      intro a ha
      simp only [decide_eq_true_eq] at ha ⊢
      intro hcon
      exact ha (List.mem_cons_of_mem current hcon)
    by_cases hcur : current ∈ cs.map (fun c => c.1)
    · have hmem : current ∈ (cs.map (fun c => c.1)).filter
          (fun v => decide (v ∉ visited)) :=
        List.mem_filter.mpr ⟨hcur, decide_eq_true hvis⟩
      have hnot : current ∉ (cs.map (fun c => c.1)).filter
          (fun v => decide (v ∉ current :: visited)) := by
        intro hcon
        have := of_decide_eq_true (List.mem_filter.mp hcon).2
        exact this (List.mem_cons_self current visited)
      have hlt : ((cs.map (fun c => c.1)).filter
            (fun v => decide (v ∉ current :: visited))).length <
          ((cs.map (fun c => c.1)).filter (fun v => decide (v ∉ visited))).length := by
        refine Nat.lt_of_le_of_ne hsub.length_le (fun heq => hnot ?_)
        rw [hsub.eq_of_length heq]
        exact hmem
      have hkey : (((cs.map (fun c => c.1)).filter
            (fun v => decide (v ∉ current :: visited))).length + 1) * (cs.length + 1) ≤
          ((cs.map (fun c => c.1)).filter (fun v => decide (v ∉ visited))).length
            * (cs.length + 1) :=
        Nat.mul_le_mul_right _ hlt
      rw [Nat.succ_mul] at hkey
      simp only [List.length_append, List.length_cons]
      omega
    · have hpush : outlivesSucc cs current = [] := by
        simp only [outlivesSucc, List.map_eq_nil_iff, List.filter_eq_nil_iff]
        intro c hc hdec
        exact hcur (List.mem_map.mpr ⟨c, hc, of_decide_eq_true hdec⟩)
      have hle := Nat.mul_le_mul_right (cs.length + 1) hsub.length_le
      rw [hpush]
      have he : (([] : List Nat).reverse ++ rest).length = rest.length := by simp
      simp only [List.length_cons]
      omega

/-- Translated from `BorrowsVisitor::outlives` (src/borrows/borrows_visitor.rs,
lines 140-161): empty visited set and `stack = vec![sup]`. -/
def outlives (cs : List (Nat × Nat)) (sup sub : Nat) : Bool :=
  outlivesGo cs sub [] [sup]

theorem CapabilityKind.minimum_comm (a b : CapabilityKind) :
    CapabilityKind.minimum a b = CapabilityKind.minimum b a := by
  cases a <;> cases b <;> decide

theorem CapabilityKind.minimum_le_left (a b c : CapabilityKind)
    (h : CapabilityKind.minimum a b = some c) : c ≤ a := by
  revert h; cases a <;> cases b <;> cases c <;> decide

theorem CapabilityKind.minimum_le_right (a b c : CapabilityKind)
    (h : CapabilityKind.minimum a b = some c) : c ≤ b := by
  revert h; cases a <;> cases b <;> cases c <;> decide

theorem PMap.get_insertGetOld (m : PMap) (p : Place) (c : CapabilityKind) (q : Place) :
    PMap.get (PMap.insertGetOld m p c).1 q = if p = q then some c else PMap.get m q := by
  induction m with
  | nil => simp [PMap.insertGetOld, PMap.get]
  | cons e rest ih =>
    obtain ⟨k, c0⟩ := e
    by_cases hkp : k = p
    · subst hkp
      by_cases hq : k = q <;> simp [PMap.insertGetOld, PMap.get, hq]
    · by_cases hq : k = q
      · subst hq
        have hpq : ¬ p = k := fun h => hkp h.symm
        simp [PMap.insertGetOld, hkp, PMap.get, hpq]
      · simp [PMap.insertGetOld, hkp, PMap.get, hq, ih]

theorem PMap.insertGetOld_snd (m : PMap) (p : Place) (c : CapabilityKind) :
    (PMap.insertGetOld m p c).2 = PMap.get m p := by
  induction m with
  | nil => simp [PMap.insertGetOld, PMap.get]
  | cons e rest ih =>
    obtain ⟨k, c0⟩ := e
    by_cases hkp : k = p <;> simp [PMap.insertGetOld, PMap.get, hkp, ih]

theorem PMap.get_erase_ne (m : PMap) (p q : Place) (h : p ≠ q) :
    PMap.get (PMap.erase m p) q = PMap.get m q := by
  induction m with
  | nil => simp [PMap.erase]
  | cons e rest ih =>
    obtain ⟨k, c0⟩ := e
    by_cases hkp : k = p
    · subst hkp
      have : ¬ k = q := fun hkq => h hkq
      simp [PMap.erase, PMap.get, this]
    · simp [PMap.erase, PMap.get, hkp, ih]

theorem PMap.get_eq_none_of_not_mem_keys (m : PMap) (p : Place)
    (h : p ∉ m.map Prod.fst) : PMap.get m p = none := by
  induction m with
  | nil => simp [PMap.get]
  | cons e rest ih =>
    obtain ⟨k, c0⟩ := e
    simp only [List.map_cons, List.mem_cons] at h
    push_neg at h
    simp only [PMap.get, if_neg (fun hk : k = p => h.1 hk.symm)]
    exact ih h.2

theorem PMap.get_erase_self (m : PMap) (p : Place) (h : PMap.NodupKeys m) :
    PMap.get (PMap.erase m p) p = none := by
  induction m with
  | nil => simp [PMap.erase, PMap.get]
  | cons e rest ih =>
    obtain ⟨k, c0⟩ := e
    simp only [PMap.NodupKeys, List.map_cons, List.nodup_cons] at h
    by_cases hkp : k = p
    · subst hkp
      simp only [PMap.erase, if_pos rfl]
      exact PMap.get_eq_none_of_not_mem_keys rest k h.1
    · simp only [PMap.erase, if_neg hkp, PMap.get, if_neg hkp]
      exact ih h.2

theorem PMap.mem_keys_insertGetOld (m : PMap) (p : Place) (c : CapabilityKind) (q : Place) :
    q ∈ (PMap.insertGetOld m p c).1.map Prod.fst ↔ q ∈ m.map Prod.fst ∨ q = p := by
  induction m with
  | nil => simp [PMap.insertGetOld]
  | cons e rest ih =>
    obtain ⟨k, c0⟩ := e
    by_cases hkp : k = p
    · subst hkp
      simp [PMap.insertGetOld]
      tauto
    · simp only [PMap.insertGetOld, if_neg hkp, List.map_cons, List.mem_cons, ih]
      tauto

theorem PMap.nodupKeys_insertGetOld (m : PMap) (p : Place) (c : CapabilityKind)
    (h : PMap.NodupKeys m) : PMap.NodupKeys (PMap.insertGetOld m p c).1 := by
  induction m with
  | nil => simp [PMap.insertGetOld, PMap.NodupKeys]
  | cons e rest ih =>
    obtain ⟨k, c0⟩ := e
    simp only [PMap.NodupKeys, List.map_cons, List.nodup_cons] at h
    by_cases hkp : k = p
    · subst hkp
      simp [PMap.insertGetOld, PMap.NodupKeys]
      refine ⟨fun x hx => h.1 ?_, h.2⟩
      exact List.mem_map_of_mem Prod.fst hx
    · simp only [PMap.insertGetOld, if_neg hkp, PMap.NodupKeys, List.map_cons,
        List.nodup_cons]
      refine ⟨?_, ih h.2⟩
      rw [PMap.mem_keys_insertGetOld]
      rintro (hm | hm)
      · exact h.1 hm
      · exact hkp hm

theorem PMap.erase_sublist_keys (m : PMap) (p : Place) :
    List.Sublist ((PMap.erase m p).map Prod.fst) (m.map Prod.fst) := by
  induction m with
  | nil => simp [PMap.erase]
  | cons e rest ih =>
    obtain ⟨k, c0⟩ := e
    by_cases hkp : k = p
    · simp only [PMap.erase, if_pos hkp, List.map_cons]
      exact List.sublist_cons_of_sublist _ (List.Sublist.refl _)
    · simp only [PMap.erase, if_neg hkp, List.map_cons]
      exact List.Sublist.cons₂ _ ih

theorem PMap.nodupKeys_erase (m : PMap) (p : Place) (h : PMap.NodupKeys m) :
    PMap.NodupKeys (PMap.erase m p) :=
  (PMap.erase_sublist_keys m p).nodup h

theorem PlaceCapabilities.joinStep_fst_get (m : PMap) (ch : Bool)
    (place : Place) (cb : CapabilityKind) (q : Place) (hm : PMap.NodupKeys m) :
    PMap.get (PlaceCapabilities.joinStep (m, ch) (place, cb)).1 q =
      if place = q then joinSpecAt (PMap.get m place) (some cb) else PMap.get m q := by
  simp only [PlaceCapabilities.joinStep]
  cases hself : PMap.get m place with
  | none =>
    simp only [joinSpecAt, PMap.get_insertGetOld]
  | some selfCap =>
    cases hmin : CapabilityKind.minimum selfCap cb with
    | none =>
      simp only [joinSpecAt, hmin]
      by_cases hq : place = q
      · subst hq
        simp [PMap.get_erase_self m place hm]
      · simp [PMap.get_erase_ne m place q hq, hq]
    | some c =>
      simp only [joinSpecAt, hmin, PMap.get_insertGetOld]

theorem PlaceCapabilities.joinStep_nodup (m : PMap) (ch : Bool)
    (e : Place × CapabilityKind) (hm : PMap.NodupKeys m) :
    PMap.NodupKeys (PlaceCapabilities.joinStep (m, ch) e).1 := by
  obtain ⟨place, cb⟩ := e
  simp only [PlaceCapabilities.joinStep]
  cases PMap.get m place with
  | none => exact PMap.nodupKeys_insertGetOld m place cb hm
  | some selfCap =>
    cases hmin : CapabilityKind.minimum selfCap cb with
    | none =>
      simp only [hmin]
      exact PMap.nodupKeys_erase m place hm
    | some c =>
      simp only [hmin]
      exact PMap.nodupKeys_insertGetOld m place c hm

theorem joinSpecAt_none_right (a : Option CapabilityKind) : joinSpecAt a none = a := by
  cases a <;> simp [joinSpecAt]

/-- Pointwise characterization of the per-place capability join: at every
place the joined map holds the pointwise join of the two inputs. -/
theorem PlaceCapabilities.join_get (other : PMap) :
    ∀ (self : PMap) (ch : Bool) (q : Place), PMap.NodupKeys self →
      PMap.NodupKeys other →
      PMap.get (other.foldl PlaceCapabilities.joinStep (self, ch)).1 q =
        joinSpecAt (PMap.get self q) (PMap.get other q) := by
  induction other with
  | nil =>
    intro self ch q hs ho
    simp [PMap.get, joinSpecAt_none_right]
  | cons e rest ih =>
    intro self ch q hs ho
    obtain ⟨p, cb⟩ := e
    have hrest : PMap.NodupKeys rest := by
      simp only [PMap.NodupKeys, List.map_cons, List.nodup_cons] at ho
      exact ho.2
    have hpnotin : p ∉ rest.map Prod.fst := by
      simp only [PMap.NodupKeys, List.map_cons, List.nodup_cons] at ho
      exact ho.1
    have hstep := PlaceCapabilities.joinStep_nodup self ch (p, cb) hs
    simp only [List.foldl_cons]
    have hmain := ih (PlaceCapabilities.joinStep (self, ch) (p, cb)).1
      (PlaceCapabilities.joinStep (self, ch) (p, cb)).2 q hstep hrest
    simp only [Prod.mk.eta] at hmain
    rw [hmain]
    by_cases hq : p = q
    · subst hq
      have hrget : PMap.get rest p = none :=
        PMap.get_eq_none_of_not_mem_keys rest p hpnotin
      rw [hrget, joinSpecAt_none_right,
        PlaceCapabilities.joinStep_fst_get self ch p cb p hs, if_pos rfl]
      simp only [PMap.get, if_pos rfl]
      cases PMap.get self p with
      | none => simp [joinSpecAt]
      | some sc => simp [joinSpecAt]
    · rw [PlaceCapabilities.joinStep_fst_get self ch p cb q hs, if_neg hq]
      simp only [PMap.get, if_neg hq]

/-- Claim C1: in the per-place capability join, whenever both sides track
the same place the resulting capability is the lattice meet (minimum) of
the two sides' capabilities — with the entry dropped if the two are
incomparable — and consequently the joined capability at any place never
exceeds either input's capability at that place. -/
theorem placeCapabilities_join_meet_and_monotone (A B : PMap)
    (hA : PMap.NodupKeys A) (hB : PMap.NodupKeys B) :
    (∀ p ca cb, PMap.get A p = some ca → PMap.get B p = some cb →
      PMap.get (PlaceCapabilities.join A B).1 p = CapabilityKind.minimum ca cb) ∧
    (∀ p c, PMap.get (PlaceCapabilities.join A B).1 p = some c →
      (∀ ca, PMap.get A p = some ca → c ≤ ca) ∧
      (∀ cb, PMap.get B p = some cb → c ≤ cb)) := by
  have hchar : ∀ q, PMap.get (PlaceCapabilities.join A B).1 q =
      joinSpecAt (PMap.get A q) (PMap.get B q) :=
    fun q => PlaceCapabilities.join_get B A false q hA hB
  constructor
  · intro p ca cb ha hb
    rw [hchar p, ha, hb]
    rfl
  · intro p c hc
    rw [hchar p] at hc
    constructor
    · intro ca ha
      rw [ha] at hc
      cases hb : PMap.get B p with
      | none =>
        rw [hb] at hc
        simp only [joinSpecAt, Option.some_inj] at hc
        subst hc
        exact Nat.le_refl _
      | some cb =>
        rw [hb] at hc
        exact CapabilityKind.minimum_le_left ca cb c hc
    · intro cb hb
      rw [hb] at hc
      cases ha : PMap.get A p with
      | none =>
        rw [ha] at hc
        simp only [joinSpecAt, Option.some_inj] at hc
        subst hc
        exact Nat.le_refl _
      | some ca =>
        rw [ha] at hc
        exact CapabilityKind.minimum_le_right ca cb c hc

/-- Witness for claim C1 at a concrete input: joining a map granting
Exclusive at a place with one granting Write stores the meet, Write. -/
theorem placeCapabilities_join_meet_and_monotone_witness :
    PMap.NodupKeys [(wPlace, CapabilityKind.exclusive)] ∧
    PMap.NodupKeys [(wPlace, CapabilityKind.write)] ∧
    PMap.get (PlaceCapabilities.join [(wPlace, CapabilityKind.exclusive)]
        [(wPlace, CapabilityKind.write)]).1 wPlace =
      CapabilityKind.minimum CapabilityKind.exclusive CapabilityKind.write :=
  ⟨by decide, by decide,
    (placeCapabilities_join_meet_and_monotone
        [(wPlace, CapabilityKind.exclusive)] [(wPlace, CapabilityKind.write)]
        (by decide) (by decide)).1
      wPlace CapabilityKind.exclusive CapabilityKind.write (by decide) (by decide)⟩

/-- Claim C2 (amended): the per-place capability-map join is commutative —
`join(A,B)` and `join(B,A)` agree at every place.  (The capability-summary
join is not commutative in general; see the counterexample.) -/
theorem placeCapabilities_join_comm (A B : PMap)
    (hA : PMap.NodupKeys A) (hB : PMap.NodupKeys B) :
    ∀ q, PMap.get (PlaceCapabilities.join A B).1 q =
      PMap.get (PlaceCapabilities.join B A).1 q := by
  intro q
  have h1 : PMap.get (PlaceCapabilities.join A B).1 q =
      joinSpecAt (PMap.get A q) (PMap.get B q) :=
    PlaceCapabilities.join_get B A false q hA hB
  have h2 : PMap.get (PlaceCapabilities.join B A).1 q =
      joinSpecAt (PMap.get B q) (PMap.get A q) :=
    PlaceCapabilities.join_get A B false q hB hA
  rw [h1, h2]
  cases PMap.get A q <;> cases PMap.get B q <;>
    simp [joinSpecAt, CapabilityKind.minimum_comm]

/-- Witness for claim C2 (amended) at a concrete input. -/
theorem placeCapabilities_join_comm_witness :
    PMap.NodupKeys [(wPlace, CapabilityKind.exclusive)] ∧
    PMap.NodupKeys [(wPlace, CapabilityKind.read)] ∧
    PMap.get (PlaceCapabilities.join [(wPlace, CapabilityKind.exclusive)]
        [(wPlace, CapabilityKind.read)]).1 wPlace =
      PMap.get (PlaceCapabilities.join [(wPlace, CapabilityKind.read)]
        [(wPlace, CapabilityKind.exclusive)]).1 wPlace :=
  ⟨by decide, by decide,
    placeCapabilities_join_comm [(wPlace, CapabilityKind.exclusive)]
      [(wPlace, CapabilityKind.read)] (by decide) (by decide) wPlace⟩

theorem Place.cmpProj_self (l : List Proj) :
    Place.cmpProj l l = some PlaceOrdering.equal := by
  induction l with
  | nil => rfl
  | cons a as ih => simp [Place.cmpProj, ih]

theorem Place.cmp_self (p : Place) : Place.cmp p p = some PlaceOrdering.equal := by
  simp [Place.cmp, Place.cmpProj_self]

theorem Proj.overlaps_symm (x y : Proj) : Proj.overlaps x y = Proj.overlaps y x := by
  cases x <;> cases y <;> first
    | rfl
    | exact decide_eq_decide.mpr ne_comm

theorem Place.cmpProj_none_symm (a b : List Proj) :
    Place.cmpProj a b = none → Place.cmpProj b a = none := by
  induction a generalizing b with
  | nil => cases b <;> simp [Place.cmpProj]
  | cons x xs ih =>
    cases b with
    | nil => simp [Place.cmpProj]
    | cons y ys =>
      simp only [Place.cmpProj]
      by_cases hxy : x = y
      · subst hxy
        simp only [if_pos rfl]
        exact ih ys
      · have hyx : ¬ y = x := fun h => hxy h.symm
        simp only [if_neg hxy, if_neg hyx, Proj.overlaps_symm y x]
        by_cases hov : Proj.overlaps x y = true
        · simp [hov]
        · simp only [Bool.not_eq_true] at hov
          simp [hov]

theorem Place.cmp_none_symm (p q : Place) :
    Place.cmp p q = none → Place.cmp q p = none := by
  simp only [Place.cmp]
  by_cases hl : p.locl = q.locl
  · simp only [if_pos hl, if_pos hl.symm]
    exact Place.cmpProj_none_symm _ _
  · intro _
    simp [if_neg (fun h : q.locl = p.locl => hl h.symm)]

theorem PMap.get_of_mem_nodup (m : PMap) (p : Place) (c : CapabilityKind)
    (hn : PMap.NodupKeys m) (hm : (p, c) ∈ m) : PMap.get m p = some c := by
  induction m with
  | nil => cases hm
  | cons e rest ih =>
    obtain ⟨k, c0⟩ := e
    simp only [PMap.NodupKeys, List.map_cons, List.nodup_cons] at hn
    rcases List.mem_cons.mp hm with he | he
    · rw [Prod.mk.injEq] at he
      obtain ⟨hp, hc⟩ := he
      subst hp
      subst hc
      simp [PMap.get]
    · have hk : k ≠ p := by
        intro hkp
        subst hkp
        exact hn.1 (List.mem_map_of_mem Prod.fst he)
      simp only [PMap.get, if_neg hk]
      exact ih hn.2 he

theorem pairwiseUnrelated_nodupKeys (m : PMap) (h : PMap.PairwiseUnrelated m) :
    PMap.NodupKeys m := by
  induction m with
  | nil => simp [PMap.NodupKeys]
  | cons e rest ih =>
    rcases List.pairwise_cons.mp h with ⟨h1, h2⟩
    simp only [PMap.NodupKeys, List.map_cons, List.nodup_cons]
    constructor
    · intro hmem
      rcases List.mem_map.mp hmem with ⟨e2, he2, hfst⟩
      have := h1 e2 he2
      rw [hfst] at this
      rw [Place.cmp_self] at this
      cases this
    · exact ih h2

theorem findAllRelated_self (A : PMap) (p : Place) (c : CapabilityKind)
    (h : PMap.PairwiseUnrelated A) (hm : (p, c) ∈ A) :
    findAllRelated A p = [(p, c)] := by
  induction A with
  | nil => cases hm
  | cons e rest ih =>
    rcases List.pairwise_cons.mp h with ⟨h1, h2⟩
    rcases List.mem_cons.mp hm with he | he
    · cases he
      have hrest : List.filter (fun e => (Place.cmp e.1 p).isSome) rest = [] := by
        rw [List.filter_eq_nil_iff]
        intro e2 he2
        have hsym := Place.cmp_none_symm p e2.1 (h1 e2 he2)
        simp [hsym]
      simp [findAllRelated, List.filter_cons, Place.cmp_self, hrest]
    · have hcmp : Place.cmp e.1 p = none := h1 (p, c) he
      have hrec := ih h2 he
      simp only [findAllRelated] at hrec
      simp [findAllRelated, List.filter_cons, hcmp, hrec]

theorem CapabilityKind.lt_self_eq_false (c : CapabilityKind) :
    CapabilityKind.lt c c = false := by
  simp [CapabilityKind.lt]

theorem cpJoinFinal_equal (A : PMap) (ch : Bool) (p : Place) (c : CapabilityKind)
    (hget : PMap.get A p = some c) :
    cpJoinFinal A ch (some p) c = some (A, ch) := by
  simp [cpJoinFinal, hget, CapabilityKind.lt_self_eq_false]

theorem cpJoinRelated_self (Γ : Nat → Ty) (A : PMap) (ch : Bool) (p : Place)
    (c : CapabilityKind) (hget : PMap.get A p = some c) :
    cpJoinRelated Γ p c [(p, c)] (A, ch) (p, c) = some (A, ch) := by
  simp only [cpJoinRelated, Place.cmp_self, Option.bind_eq_bind, Option.some_bind]
  exact cpJoinFinal_equal A ch p c hget

theorem cpJoinStep_self (Γ : Nat → Ty) (A : PMap) (ch : Bool) (p : Place)
    (c : CapabilityKind) (h : PMap.PairwiseUnrelated A) (hm : (p, c) ∈ A) :
    cpJoinStep Γ (A, ch) (p, c) = some (A, ch) := by
  have hrel := findAllRelated_self A p c h hm
  have hget := PMap.get_of_mem_nodup A p c (pairwiseUnrelated_nodupKeys A h) hm
  simp only [cpJoinStep, hrel, List.foldlM_cons, List.foldlM_nil]
  rw [cpJoinRelated_self Γ A ch p c hget]
  rfl

theorem cpJoin_foldlM_self (Γ : Nat → Ty) (A : PMap)
    (h : PMap.PairwiseUnrelated A) (ch : Bool) :
    ∀ l : List (Place × CapabilityKind), (∀ e ∈ l, e ∈ A) →
      l.foldlM (cpJoinStep Γ) (A, ch) = some (A, ch) := by
  intro l
  induction l with
  | nil => intro _; rfl
  | cons e rest ih =>
    intro hl
    obtain ⟨p, c⟩ := e
    rw [List.foldlM_cons, cpJoinStep_self Γ A ch p c h (hl _ (List.mem_cons_self _ _))]
    simpa using ih (fun e he => hl e (List.mem_cons_of_mem _ he))

theorem CapabilityProjections.join_self_eq (Γ : Nat → Ty) (A : PMap)
    (h : PMap.PairwiseUnrelated A) :
    CapabilityProjections.join Γ A A = some (A, A.isEmpty) := by
  cases A with
  | nil => rfl
  | cons e rest =>
    simp only [CapabilityProjections.join, List.isEmpty_cons, Bool.false_eq_true,
      if_false]
    exact cpJoin_foldlM_self Γ _ h false _ (fun e2 he => he)

theorem cpJoinFinal_false (s : PMap) (ch : Bool) (fin : Option Place)
    (k : CapabilityKind) (r : PMap × Bool) (h : cpJoinFinal s ch fin k = some r)
    (hr : r.2 = false) : r.1 = s ∧ ch = false := by
  cases fin with
  | none =>
    simp only [cpJoinFinal, Option.some_inj] at h
    subst h
    exact ⟨rfl, hr⟩
  | some pl =>
    simp only [cpJoinFinal, Option.bind_eq_bind] at h
    cases hg : PMap.get s pl with
    | none => rw [hg] at h; simp at h
    | some c =>
      rw [hg] at h
      simp only [Option.some_bind] at h
      by_cases hlt : CapabilityKind.lt k c = true
      · rw [if_pos hlt] at h
        simp only [Option.some_inj] at h
        subst h
        simp at hr
      · rw [if_neg hlt] at h
        simp only [Option.some_inj] at h
        subst h
        exact ⟨rfl, hr⟩

theorem Place.projPre_self (l : List Proj) : Place.projPre l l = true := by
  induction l with
  | nil => rfl
  | cons a as ih => simp [Place.projPre, ih]

theorem Place.isPrefixOf_self (p : Place) : Place.isPrefixOf p p = true := by
  simp [Place.isPrefixOf, Place.projPre_self]

theorem cpJoinSuffixStep_false (Γ : Nat → Ty) (place : Place) (kind : CapabilityKind)
    (related : List (Place × CapabilityKind)) (st : PMap × Bool)
    (pk : Place × CapabilityKind) (r : PMap × Bool)
    (h : cpJoinSuffixStep Γ place kind related st pk = some r) (hr : r.2 = false) :
    r.1 = st.1 ∧ st.2 = false := by
  simp only [cpJoinSuffixStep, Option.bind_eq_bind, Place.joinableTo] at h
  by_cases c0 : PMap.containsKey st.1 pk.1 = true
  · rw [if_neg (by simp [c0])] at h
    by_cases c1 : kind ≠ CapabilityKind.exclusive
    · rw [if_pos c1] at h
      by_cases c2 : place ≠ pk.1
      · rw [if_pos c2] at h
        obtain ⟨s2, hcol, h2⟩ := Option.bind_eq_some.mp h
        by_cases c3 : CapabilityKind.lt kind pk.2 = true
        · rw [if_pos c3] at h2
          injection h2 with h3
          subst h3
          exact absurd hr (by simp)
        · rw [if_neg c3] at h2
          injection h2 with h3
          subst h3
          exact absurd hr (by simp)
      · rw [if_neg c2] at h
        by_cases c3 : CapabilityKind.lt kind pk.2 = true
        · rw [if_pos c3] at h
          injection h with h3
          subst h3
          exact absurd hr (by simp)
        · rw [if_neg c3] at h
          injection h with h3
          subst h3
          exact ⟨rfl, hr⟩
    · rw [if_neg c1] at h
      rw [if_neg (by simp)] at h
      by_cases c3 : CapabilityKind.lt kind pk.2 = true
      · rw [if_pos c3] at h
        injection h with h3
        subst h3
        exact absurd hr (by simp)
      · rw [if_neg c3] at h
        injection h with h3
        subst h3
        exact ⟨rfl, hr⟩
  · rw [if_pos (by simp [c0])] at h
    injection h with h3
    subst h3
    exact ⟨rfl, hr⟩

theorem foldlM_state_false {α : Type} (f : PMap × Bool → α → Option (PMap × Bool))
    (hf : ∀ st a r, f st a = some r → r.2 = false → r.1 = st.1 ∧ st.2 = false) :
    ∀ (l : List α) (st : PMap × Bool) (r : PMap × Bool),
      l.foldlM f st = some r → r.2 = false → r.1 = st.1 ∧ st.2 = false := by
  intro l
  induction l with
  | nil =>
    intro st r h hr
    simp only [List.foldlM_nil, Option.pure_def, Option.some_inj] at h
    subst h
    exact ⟨rfl, hr⟩
  | cons a rest ih =>
    intro st r h hr
    rw [List.foldlM_cons] at h
    simp only [Option.bind_eq_bind] at h
    obtain ⟨st2, hst, h⟩ := Option.bind_eq_some.mp h
    obtain ⟨h1, h2⟩ := ih st2 r h hr
    obtain ⟨h3, h4⟩ := hf st a st2 hst h2
    exact ⟨h1.trans h3, h4⟩

theorem cpJoinRelated_false (Γ : Nat → Ty) (place : Place) (kind : CapabilityKind)
    (related : List (Place × CapabilityKind)) (st : PMap × Bool)
    (frmE : Place × CapabilityKind) (r : PMap × Bool)
    (h : cpJoinRelated Γ place kind related st frmE = some r) (hr : r.2 = false) :
    r.1 = st.1 ∧ st.2 = false := by
  simp only [cpJoinRelated, Option.bind_eq_bind] at h
  obtain ⟨ord, hord, h⟩ := Option.bind_eq_some.mp h
  cases ord with
  | pre =>
    simp only [Place.joinableTo] at h
    obtain ⟨frm, hg, h⟩ := Option.bind_eq_some.mp h
    obtain ⟨selfCapFrm, hsc, h⟩ := Option.bind_eq_some.mp h
    by_cases c1 : selfCapFrm ≠ CapabilityKind.exclusive
    · rw [if_pos c1] at h
      rw [if_neg (by simp [Place.isPrefixOf_self])] at h
      rw [if_neg (by simp)] at h
      exact cpJoinFinal_false _ _ _ _ _ h hr
    · rw [if_neg c1] at h
      by_cases c2 : Place.isPrefixOf frm place = true
      · rw [if_neg (by simp [c2])] at h
        by_cases c3 : place ≠ frm
        · rw [if_pos c3] at h
          obtain ⟨s2, hexp, h2⟩ := Option.bind_eq_some.mp h
          obtain ⟨h1, h2p⟩ := cpJoinFinal_false _ _ _ _ _ h2 hr
          cases h2p
        · rw [if_neg c3] at h
          exact cpJoinFinal_false _ _ _ _ _ h hr
      · rw [if_pos (by simp [c2])] at h
        exact Option.noConfusion h
  | equal =>
    simp only at h
    exact cpJoinFinal_false _ _ _ _ _ h hr
  | suf =>
    simp only at h
    obtain ⟨r2, hfold, h⟩ := Option.bind_eq_some.mp h
    obtain ⟨h1, h2⟩ := cpJoinFinal_false _ _ _ _ _ h hr
    have hfoldres := foldlM_state_false
      (cpJoinSuffixStep Γ place kind related)
      (fun st2 a r3 ha hb => cpJoinSuffixStep_false Γ place kind related st2 a r3 ha hb)
      related st r2 hfold h2
    exact ⟨h1.trans hfoldres.1, hfoldres.2⟩
  | both =>
    simp only at h
    obtain ⟨s2, hcol, h⟩ := Option.bind_eq_some.mp h
    obtain ⟨h1, h2⟩ := cpJoinFinal_false _ _ _ _ _ h hr
    cases h2

theorem cpJoinStep_false (Γ : Nat → Ty) (st : PMap × Bool)
    (e : Place × CapabilityKind) (r : PMap × Bool)
    (h : cpJoinStep Γ st e = some r) (hr : r.2 = false) :
    r.1 = st.1 ∧ st.2 = false := by
  simp only [cpJoinStep] at h
  exact foldlM_state_false (cpJoinRelated Γ e.1 e.2 (findAllRelated st.1 e.1))
    (fun st2 a r3 ha hb =>
      cpJoinRelated_false Γ e.1 e.2 (findAllRelated st.1 e.1) st2 a r3 ha hb)
    (findAllRelated st.1 e.1) st r h hr

theorem CapabilityProjections.join_false_unchanged (Γ : Nat → Ty) (A B : PMap)
    (s : PMap) (h : CapabilityProjections.join Γ A B = some (s, false)) : s = A := by
  simp only [CapabilityProjections.join] at h
  by_cases hA : A.isEmpty = true
  · rw [if_pos hA] at h
    simp only [Option.some_inj, Prod.mk.injEq] at h
    cases h.2
  · rw [if_neg hA] at h
    exact (foldlM_state_false (cpJoinStep Γ)
      (fun st a r ha hb => cpJoinStep_false Γ st a r ha hb) B (A, false) (s, false)
      h rfl).1

/-- Claim C2 counterexample: the capability-summary join is not
commutative.  With A = {x: Write} and B = {x.0: Exclusive, x.1: Read} over
a two-field tuple local — both valid pairwise-disjoint frontiers —
join(A,B) stores Read at x while join(B,A) stores Write at x, so the two
orders produce different summaries. -/
theorem capabilityProjections_join_not_comm_cex :
    (CapabilityProjections.join cexTupleTy cexA cexB).map
        (fun r => PMap.get r.1 cexRoot) = some (some CapabilityKind.read) ∧
    (CapabilityProjections.join cexTupleTy cexB cexA).map
        (fun r => PMap.get r.1 cexRoot) = some (some CapabilityKind.write) ∧
    PMap.PairwiseUnrelated cexA ∧ PMap.PairwiseUnrelated cexB := by
  refine ⟨?_, ?_, ?_, ?_⟩ <;> decide

/-- Claim C3: the capability-summary join is idempotent — joining a valid
summary with an equal summary leaves the receiver's tracked places and
capabilities unchanged, and the bottom case (an empty receiver) simply
copies the other side. -/
theorem capabilityProjections_join_idempotent (Γ : Nat → Ty) (A : PMap)
    (h : PMap.PairwiseUnrelated A) :
    (CapabilityProjections.join Γ A A).map Prod.fst = some A ∧
    (∀ B : PMap, CapabilityProjections.join Γ [] B = some (B, true)) := by
  constructor
  · rw [CapabilityProjections.join_self_eq Γ A h]
    rfl
  · intro B
    rfl

/-- Witness for claim C3 at a concrete input: a two-entry valid summary
joined with itself is returned unchanged. -/
theorem capabilityProjections_join_idempotent_witness :
    PMap.PairwiseUnrelated cexB ∧
    (CapabilityProjections.join cexTupleTy cexB cexB).map Prod.fst = some cexB :=
  ⟨by decide,
    (capabilityProjections_join_idempotent cexTupleTy cexB (by decide)).1⟩

/-- Claim C9 (amended): the boolean returned by the capability-summary
join is sound for the fixpoint driver — whenever it returns `false` the
receiving state is unchanged, and joining a valid nonempty state with an
equal state returns `false`; however an empty receiver always reports a
change, even when the other side is also empty (see the counterexample). -/
theorem capabilityProjections_join_changed_flag (Γ : Nat → Ty) :
    (∀ A B s, CapabilityProjections.join Γ A B = some (s, false) → s = A) ∧
    (∀ A : PMap, PMap.PairwiseUnrelated A → A ≠ [] →
      CapabilityProjections.join Γ A A = some (A, false)) := by
  constructor
  · intro A B s h
    exact CapabilityProjections.join_false_unchanged Γ A B s h
  · intro A h hne
    have hj := CapabilityProjections.join_self_eq Γ A h
    have hfalse : A.isEmpty = false := by
      cases A with
      | nil => exact absurd rfl hne
      | cons e rest => rfl
    rwa [hfalse] at hj

/-- Claim C9 counterexample: joining the empty summary into an empty
receiver leaves the receiver unchanged, yet the join returns `true` — so
the boolean is not "true iff the receiving state changed". -/
theorem capabilityProjections_join_changed_flag_cex :
    CapabilityProjections.join cexTupleTy [] [] = some ([], true) := rfl

/-- Witness for claim C9 (amended) at a concrete input. -/
theorem capabilityProjections_join_changed_flag_witness :
    PMap.PairwiseUnrelated cexB ∧ cexB ≠ [] ∧
    CapabilityProjections.join cexTupleTy cexB cexB = some (cexB, false) :=
  ⟨by decide, by decide,
    (capabilityProjections_join_changed_flag cexTupleTy).2 cexB (by decide) (by decide)⟩

/-- Claim C10: in the per-local join of allocation states, Unallocated is
absorbing regardless of side — an Allocated receiver joined with an
Unallocated side becomes Unallocated and reports a change, an Unallocated
receiver joined with an Allocated side stays Unallocated and reports no
change, two Unallocated sides report no change, and only two Allocated
sides join their place partitions. -/
theorem capabilityLocal_join_unallocated_absorbing (Γ : Nat → Ty) (a b : PMap) :
    CapabilityLocal.join Γ (CapabilityLocal.allocated a) CapabilityLocal.unallocated =
      some (CapabilityLocal.unallocated, true) ∧
    CapabilityLocal.join Γ CapabilityLocal.unallocated (CapabilityLocal.allocated b) =
      some (CapabilityLocal.unallocated, false) ∧
    CapabilityLocal.join Γ CapabilityLocal.unallocated CapabilityLocal.unallocated =
      some (CapabilityLocal.unallocated, false) ∧
    CapabilityLocal.join Γ (CapabilityLocal.allocated a) (CapabilityLocal.allocated b) =
      (CapabilityProjections.join Γ a b).bind
        (fun r => some (CapabilityLocal.allocated r.1, r.2)) := by
  exact ⟨rfl, rfl, rfl, rfl⟩

theorem Place.cmpProj_pre_trans (P : List Proj) :
    ∀ (Q R : List Proj), Place.cmpProj P Q = some PlaceOrdering.pre →
      (Place.cmpProj R Q).isSome = true → (Place.cmpProj R P).isSome = true := by
  induction P with
  | nil =>
    intro Q R hpq hrq
    cases R <;> simp [Place.cmpProj]
  | cons x P2 ih =>
    intro Q R hpq hrq
    cases Q with
    | nil =>
      cases R <;> simp [Place.cmpProj] at hpq
    | cons y Q2 =>
      by_cases hxy : x = y
      · subst hxy
        rw [Place.cmpProj, if_pos rfl] at hpq
        cases R with
        | nil => simp [Place.cmpProj]
        | cons z R2 =>
          by_cases hzx : z = x
          · subst hzx
            rw [Place.cmpProj, if_pos rfl] at hrq
            rw [Place.cmpProj, if_pos rfl]
            exact ih Q2 R2 hpq hrq
          · rw [Place.cmpProj, if_neg hzx] at hrq
            rw [Place.cmpProj, if_neg hzx]
            by_cases hov : Proj.overlaps z x = true
            · simp [hov]
            · simp only [Bool.not_eq_true] at hov
              rw [hov] at hrq
              simp at hrq
      · rw [Place.cmpProj, if_neg hxy] at hpq
        by_cases hov : Proj.overlaps x y = true
        · rw [if_pos hov] at hpq
          cases hpq
        · simp only [Bool.not_eq_true] at hov
          rw [hov] at hpq
          simp at hpq

theorem Place.cmp_locl_eq_of_isSome (a q : Place)
    (h : (Place.cmp a q).isSome = true) : a.locl = q.locl := by
  by_contra hne
  simp [Place.cmp, hne] at h

theorem Place.cmp_pre_trans (p q a : Place)
    (hpq : Place.cmp p q = some PlaceOrdering.pre)
    (haq : (Place.cmp a q).isSome = true) :
    (Place.cmp a p).isSome = true := by
  have hl1 : p.locl = q.locl := by
    by_contra hne
    simp [Place.cmp, hne] at hpq
  have hl2 : a.locl = q.locl := Place.cmp_locl_eq_of_isSome a q haq
  rw [Place.cmp, if_pos hl1] at hpq
  rw [Place.cmp, if_pos hl2] at haq
  rw [Place.cmp, if_pos (hl2.trans hl1.symm)]
  exact Place.cmpProj_pre_trans p.projection q.projection a.projection hpq haq

theorem findAllRelated_pre (A : PMap) (p q : Place) (c : CapabilityKind)
    (h : PMap.PairwiseUnrelated A) (hm : (p, c) ∈ A)
    (hpq : Place.cmp p q = some PlaceOrdering.pre) :
    findAllRelated A q = [(p, c)] := by
  induction A with
  | nil => cases hm
  | cons e rest ih =>
    rcases List.pairwise_cons.mp h with ⟨h1, h2⟩
    rcases List.mem_cons.mp hm with he | he
    · cases he
      have hrest : List.filter (fun e2 => (Place.cmp e2.1 q).isSome) rest = [] := by
        rw [List.filter_eq_nil_iff]
        intro e2 he2
        intro hsome
        have htrans := Place.cmp_pre_trans p q e2.1 hpq hsome
        have hrel : Place.cmp e2.1 p = none :=
          Place.cmp_none_symm p e2.1 (h1 e2 he2)
        rw [hrel] at htrans
        cases htrans
      simp [findAllRelated, List.filter_cons, hpq, hrest]
    · have hnone : Place.cmp e.1 q = none := by
        cases hcmp : Place.cmp e.1 q with
        | none => rfl
        | some o =>
          have hsome : (Place.cmp e.1 q).isSome = true := by rw [hcmp]; rfl
          have htrans := Place.cmp_pre_trans p q e.1 hpq hsome
          have hrel : Place.cmp e.1 p = none := h1 (p, c) he
          rw [hrel] at htrans
          cases htrans
      have hrec := ih h2 he
      simp only [findAllRelated] at hrec
      simp [findAllRelated, List.filter_cons, hnone, hrec]

theorem PMap.keys_insertGetOld_mem (m : PMap) (p : Place) (c : CapabilityKind)
    (h : p ∈ m.map Prod.fst) :
    (PMap.insertGetOld m p c).1.map Prod.fst = m.map Prod.fst := by
  induction m with
  | nil => cases h
  | cons e rest ih =>
    obtain ⟨k, c0⟩ := e
    by_cases hkp : k = p
    · subst hkp
      simp [PMap.insertGetOld]
    · simp only [List.map_cons, List.mem_cons] at h
      rcases h with h | h
      · exact absurd h.symm hkp
      · simp [PMap.insertGetOld, hkp, ih h]

theorem cpJoinRelated_pre_eval (Γ : Nat → Ty) (A : PMap) (ch : Bool) (p q : Place)
    (c k : CapabilityKind) (hget : PMap.get A p = some c)
    (hc : c ≠ CapabilityKind.exclusive)
    (hpq : Place.cmp p q = some PlaceOrdering.pre) :
    cpJoinRelated Γ q k [(p, c)] (A, ch) (p, c) =
      some (if CapabilityKind.lt k c then (CapabilityProjections.updateCap A p k, true)
        else (A, ch)) := by
  simp only [cpJoinRelated, Option.bind_eq_bind, hpq, Option.some_bind]
  simp only [getOnlyPlace, Option.some_bind, hget]
  rw [if_pos hc]
  rw [if_neg (by simp [Place.isPrefixOf_self])]
  rw [if_neg (by simp)]
  simp only [cpJoinFinal, Option.bind_eq_bind, hget, Option.some_bind]
  by_cases hlt : CapabilityKind.lt k c = true
  · rw [if_pos hlt, if_pos hlt]
  · rw [if_neg hlt, if_neg hlt]

theorem capabilityProjections_join_single_pre (Γ : Nat → Ty) (A : PMap)
    (p q : Place) (c k : CapabilityKind) (h : PMap.PairwiseUnrelated A)
    (hm : (p, c) ∈ A) (hc : c ≠ CapabilityKind.exclusive)
    (hpq : Place.cmp p q = some PlaceOrdering.pre) :
    CapabilityProjections.join Γ A [(q, k)] =
      some (if CapabilityKind.lt k c then (CapabilityProjections.updateCap A p k, true)
        else (A, false)) := by
  have hrel := findAllRelated_pre A p q c h hm hpq
  have hget := PMap.get_of_mem_nodup A p c (pairwiseUnrelated_nodupKeys A h) hm
  have hne : A.isEmpty = false := by
    cases A with
    | nil => cases hm
    | cons e rest => rfl
  simp only [CapabilityProjections.join, hne, Bool.false_eq_true, if_false]
  simp only [List.foldlM_cons, List.foldlM_nil, cpJoinStep, hrel]
  rw [cpJoinRelated_pre_eval Γ A false p q c k hget hc hpq]
  rfl

/-- Claim C4: in the capability join's prefix case — the other side's
place strictly extends a place tracked by self — a tracked place whose
capability is not Exclusive is never split: the join leaves the tracked
key set unchanged, merely downgrading the capability at the tracked place
to the meet of the two capabilities. -/
theorem capabilityProjections_join_no_split (Γ : Nat → Ty) (A : PMap)
    (p q : Place) (c k : CapabilityKind) (h : PMap.PairwiseUnrelated A)
    (hm : (p, c) ∈ A) (hc : c ≠ CapabilityKind.exclusive)
    (hpq : Place.cmp p q = some PlaceOrdering.pre) :
    ∃ s changed, CapabilityProjections.join Γ A [(q, k)] = some (s, changed) ∧
      s.map Prod.fst = A.map Prod.fst ∧
      PMap.get s p = some (if CapabilityKind.lt k c then k else c) := by
  rw [capabilityProjections_join_single_pre Γ A p q c k h hm hc hpq]
  have hget := PMap.get_of_mem_nodup A p c (pairwiseUnrelated_nodupKeys A h) hm
  have hkey : p ∈ A.map Prod.fst := List.mem_map_of_mem Prod.fst hm
  by_cases hlt : CapabilityKind.lt k c = true
  · refine ⟨CapabilityProjections.updateCap A p k, true, by rw [if_pos hlt], ?_, ?_⟩
    · exact PMap.keys_insertGetOld_mem A p k hkey
    · rw [if_pos hlt]
      simp only [CapabilityProjections.updateCap]
      rw [PMap.get_insertGetOld, if_pos rfl]
  · refine ⟨A, false, by rw [if_neg hlt], rfl, ?_⟩
    rw [if_neg hlt]
    exact hget

/-- Witness for claim C4 at a concrete input: a Write-capability root is
not split when joined against a strictly deeper place. -/
theorem capabilityProjections_join_no_split_witness :
    PMap.PairwiseUnrelated cexA ∧
    (cexRoot, CapabilityKind.write) ∈ cexA ∧
    CapabilityKind.write ≠ CapabilityKind.exclusive ∧
    Place.cmp cexRoot cexF = some PlaceOrdering.pre ∧
    (∃ s changed,
      CapabilityProjections.join cexTupleTy cexA
          [(cexF, CapabilityKind.exclusive)] = some (s, changed) ∧
      s.map Prod.fst = cexA.map Prod.fst ∧
      PMap.get s cexRoot =
        some (if CapabilityKind.lt CapabilityKind.exclusive CapabilityKind.write
          then CapabilityKind.exclusive else CapabilityKind.write)) :=
  ⟨by decide, by decide, by decide, by decide,
    capabilityProjections_join_no_split cexTupleTy cexA cexRoot cexF
      CapabilityKind.write CapabilityKind.exclusive
      (by decide) (by decide) (by decide) (by decide)⟩

/-- Claim C5: for a function-call terminator whose signature exposes no
lifetimes in its inputs or output, the transfer function adds no
abstraction edge — the call leaves the borrow graph's abstraction edges
unchanged. -/
theorem borrowsVisitor_no_lifetimes_no_abstraction
    (sigInputs : List SigTy) (sigOutput : SigTy) (argPlaces : List (Option Nat))
    (destination : Nat) (paramEnv : List (Nat × Nat))
    (hin : ∀ t ∈ sigInputs, extractLifetimes t = [])
    (hout : extractLifetimes sigOutput = []) :
    constructRegionAbstraction sigInputs sigOutput argPlaces destination paramEnv =
      none ∧
    ∀ graph, applyCallAbstraction graph sigInputs sigOutput argPlaces destination
      paramEnv = graph := by
  have hnone : constructRegionAbstraction sigInputs sigOutput argPlaces destination
      paramEnv = none := by
    simp [constructRegionAbstraction, hout]
  refine ⟨hnone, fun graph => ?_⟩
  simp [applyCallAbstraction, hnone]

/-- Witness for claim C5 at a concrete input: a call with one
lifetime-free input and a lifetime-free output adds nothing to the borrow
graph. -/
theorem borrowsVisitor_no_lifetimes_no_abstraction_witness :
    (∀ t ∈ [SigTy.base], extractLifetimes t = []) ∧
    extractLifetimes SigTy.base = [] ∧
    constructRegionAbstraction [SigTy.base] SigTy.base [some 0] 1 [] = none ∧
    applyCallAbstraction [] [SigTy.base] SigTy.base [some 0] 1 [] = [] :=
  ⟨by decide, by decide,
    (borrowsVisitor_no_lifetimes_no_abstraction [SigTy.base] SigTy.base [some 0] 1 []
      (by decide) (by decide)).1,
    (borrowsVisitor_no_lifetimes_no_abstraction [SigTy.base] SigTy.base [some 0] 1 []
      (by decide) (by decide)).2 []⟩

theorem addEdgesFrom_cyc_none :
    ∀ (fuel : Nat) (acc : List (Nat × Nat)) (b : Nat),
      addEdgesFrom cycBg allLive fuel acc b 0 = none := by
  intro fuel
  induction fuel with
  | zero => intro acc b; rfl
  | succ n ih =>
    intro acc b
    have hn : nodesPointingTo cycBg 0 = [0] := rfl
    simp only [addEdgesFrom, hn, List.isEmpty_cons, Bool.false_eq_true, if_false,
      List.foldlM_cons, List.foldlM_nil, allLive]
    rw [ih ((0, b) :: acc) 0]
    rfl

/-- Claim C7 (refuting the claim as the code stands): coupling-graph
construction does not terminate on a borrow graph with a cyclic region
relationship.  On the graph where node 0 points to itself and to the leaf
node 1, the recursive walk of `add_edges_from` — which keeps no visited
set — revisits node 0 forever: the fuel-indexed embedding returns `none`
(fuel exhausted) for every fuel, so no finite recursion depth completes
the construction. -/
theorem constructCouplingGraph_diverges_on_cycle (fuel : Nat) :
    constructCouplingGraph cycBg allLive fuel = none := by
  have hleaf : leafNodes cycBg = [1] := rfl
  simp only [constructCouplingGraph, hleaf, List.foldlM_cons, List.foldlM_nil]
  cases fuel with
  | zero => rfl
  | succ n =>
    have hn : nodesPointingTo cycBg 1 = [0] := rfl
    simp only [addEdgesFrom, hn, List.isEmpty_cons, Bool.false_eq_true, if_false,
      List.foldlM_cons, List.foldlM_nil, allLive]
    rw [addEdgesFrom_cyc_none n ((0, 1) :: []) 0]
    rfl

theorem Place.projPre_append_same (c : List Proj) (a b : List Proj) :
    Place.projPre (c ++ a) (c ++ b) = Place.projPre a b := by
  induction c with
  | nil => rfl
  | cons x xs ih => simp [Place.projPre, ih]

theorem Place.projPre_exists_suffix (a : List Proj) :
    ∀ b, Place.projPre a b = true → ∃ r, b = a ++ r := by
  induction a with
  | nil => intro b _; exact ⟨b, rfl⟩
  | cons x xs ih =>
    intro b h
    cases b with
    | nil => simp [Place.projPre] at h
    | cons y ys =>
      by_cases hxy : x = y
      · subst hxy
        rw [Place.projPre, if_pos rfl] at h
        obtain ⟨r, hr⟩ := ih ys h
        exact ⟨r, by simp [hr]⟩
      · rw [Place.projPre, if_neg hxy] at h
        cases h

theorem Place.projPre_ne_elem (c : List Proj) (e2 elem : Proj) (r : List Proj)
    (h : e2 ≠ elem) :
    Place.projPre (c ++ [e2]) (c ++ elem :: r) = false := by
  rw [Place.projPre_append_same]
  rw [Place.projPre, if_neg h]

theorem Place.mkElem_inj (p : Place) (e1 e2 : Proj)
    (h : p.mkElem e1 = p.mkElem e2) : e1 = e2 := by
  simp only [Place.mkElem, Place.mk.injEq, List.append_cancel_left_eq,
    List.cons.injEq] at h
  exact h.2.1

theorem Place.expand_field_spec (Γ : Nat → Ty) (p : Place) (i : Nat)
    (others : List Place) (h : Place.expand_field Γ p (some i) = some others) :
    (∀ x ∈ others, ∃ e2, x = p.mkElem e2 ∧ e2 ≠ Proj.field i) ∧ others.Nodup := by
  simp only [Place.expand_field, Option.bind_eq_bind] at h
  obtain ⟨typ, htyp, h⟩ := Option.bind_eq_some.mp h
  cases hty : typ.ty with
  | adt variants =>
    rw [hty] at h
    simp only at h
    obtain ⟨flds, hflds, h⟩ := Option.bind_eq_some.mp h
    injection h with h
    subst h
    constructor
    · intro x hx
      obtain ⟨index, hidx, hval⟩ := List.mem_filterMap.mp hx
      by_cases hne : some index ≠ some i
      · rw [if_pos hne] at hval
        injection hval with hval
        refine ⟨Proj.field index, hval.symm, ?_⟩
        intro hcon
        injection hcon with hcon
        exact hne (by rw [hcon])
      · rw [if_neg hne] at hval
        cases hval
    · refine List.Nodup.filterMap ?_ (List.nodup_range _)
      intro a a2 b hb hb2
      by_cases ha : some a ≠ some i
      · rw [if_pos ha] at hb
        by_cases ha2 : some a2 ≠ some i
        · rw [if_pos ha2] at hb2
          simp only [Option.mem_def, Option.some_inj] at hb hb2
          have := Place.mkElem_inj p _ _ (hb.trans hb2.symm)
          injection this
        · rw [if_neg ha2] at hb2
          cases hb2
      · rw [if_neg ha] at hb
        cases hb
  | tuple flds =>
    rw [hty] at h
    simp only at h
    injection h with h
    subst h
    constructor
    · intro x hx
      obtain ⟨index, hidx, hval⟩ := List.mem_filterMap.mp hx
      by_cases hne : some index ≠ some i
      · rw [if_pos hne] at hval
        injection hval with hval
        refine ⟨Proj.field index, hval.symm, ?_⟩
        intro hcon
        injection hcon with hcon
        exact hne (by rw [hcon])
      · rw [if_neg hne] at hval
        cases hval
    · refine List.Nodup.filterMap ?_ (List.nodup_range _)
      intro a a2 b hb hb2
      by_cases ha : some a ≠ some i
      · rw [if_pos ha] at hb
        by_cases ha2 : some a2 ≠ some i
        · rw [if_pos ha2] at hb2
          simp only [Option.mem_def, Option.some_inj] at hb hb2
          have := Place.mkElem_inj p _ _ (hb.trans hb2.symm)
          injection this
        · rw [if_neg ha2] at hb2
          cases hb2
      · rw [if_neg ha] at hb
        cases hb
  | ref m t =>
    rw [hty] at h
    simp only at h
    injection h with h
    subst h
    refine ⟨?_, List.nodup_singleton _⟩
    intro x hx
    rcases List.mem_singleton.mp hx with rfl
    exact ⟨Proj.deref, rfl, by intro hcon; cases hcon⟩
  | unitTy => rw [hty] at h; cases h
  | rawPtr m t => rw [hty] at h; cases h
  | boxTy t => rw [hty] at h; cases h
  | array t n => rw [hty] at h; cases h

theorem Place.expand_one_level_spec (Γ : Nat → Ty) (p guide nm : Place)
    (others : List Place) (kind : ProjectionRefKind)
    (h : Place.expand_one_level Γ p guide = some (nm, others, kind)) :
    ∃ elem, guide.projection[p.projection.length]? = some elem ∧
      nm = Place.mk p.locl (p.projection ++ [elem]) ∧
      (∀ x ∈ others, ∃ e2, x = Place.mk p.locl (p.projection ++ [e2]) ∧ e2 ≠ elem) ∧
      others.Nodup := by
  simp only [Place.expand_one_level, Option.bind_eq_bind] at h
  obtain ⟨elem, helem, h⟩ := Option.bind_eq_some.mp h
  obtain ⟨rk, hrk, h⟩ := Option.bind_eq_some.mp h
  injection h with h
  rw [Prod.mk.injEq] at h
  obtain ⟨hnm, h2⟩ := h
  rw [Prod.mk.injEq] at h2
  obtain ⟨hoth, hkind⟩ := h2
  refine ⟨elem, helem, hnm.symm, ?_⟩
  rw [← hoth]
  clear hoth hkind hnm
  cases elem with
  | field i =>
    simp only [Place.expand_one_level_others] at hrk
    cases hexp : Place.expand_field Γ p (some i) with
    | none => rw [hexp] at hrk; cases hrk
    | some fl =>
      rw [hexp] at hrk
      injection hrk with hrk
      obtain ⟨hspec, hnd⟩ := Place.expand_field_spec Γ p i fl hexp
      subst hrk
      constructor
      · intro x hx
        obtain ⟨e2, he2, hne⟩ := hspec x hx
        refine ⟨e2, ?_, ?_⟩
        · rw [he2]; rfl
        · intro hcon; exact hne (by rw [hcon])
      · exact hnd
  | deref =>
    simp only [Place.expand_one_level_others, Option.bind_eq_bind] at hrk
    obtain ⟨typ, htyp, hrk⟩ := Option.bind_eq_some.mp hrk
    cases hty2 : typ.ty with
    | ref m t =>
      rw [hty2] at hrk
      simp only [Place.derefKind, Option.some_inj] at hrk
      subst hrk
      exact ⟨by simp, by simp⟩
    | rawPtr m t =>
      rw [hty2] at hrk
      simp only [Place.derefKind, Option.some_inj] at hrk
      subst hrk
      exact ⟨by simp, by simp⟩
    | boxTy t =>
      rw [hty2] at hrk
      simp only [Place.derefKind, Option.some_inj] at hrk
      subst hrk
      exact ⟨by simp, by simp⟩
    | unitTy =>
      rw [hty2] at hrk
      simp [Place.derefKind] at hrk
    | adt variants =>
      rw [hty2] at hrk
      simp [Place.derefKind] at hrk
    | tuple flds =>
      rw [hty2] at hrk
      simp [Place.derefKind] at hrk
    | array t n =>
      rw [hty2] at hrk
      simp [Place.derefKind] at hrk
  | constantIndex offset min_length from_end =>
    simp only [Place.expand_one_level_others] at hrk
    split at hrk
    all_goals try split at hrk
    all_goals try exact Option.noConfusion hrk
    all_goals
      (injection hrk with hrk
       subst hrk
       refine ⟨?_, ?_⟩
       · intro x hx
         obtain ⟨j, hj, hval⟩ := List.mem_map.mp hx
         rcases List.mem_filter.mp hj with ⟨hjr, hjc⟩
         simp only [Bool.and_eq_true, decide_eq_true_eq] at hjc
         refine ⟨Proj.constantIndex j min_length from_end, ?_, ?_⟩
         · rw [← hval]; rfl
         · intro hcon
           injection hcon with h1 h2 h3
           exact hjc.2 h1
       · refine List.Nodup.map ?_ ((List.nodup_range _).filter _)
         intro a b hab
         have hinj := Place.mkElem_inj p _ _ hab
         injection hinj)
  | index =>
    simp only [Place.expand_one_level_others, Option.some_inj] at hrk
    subst hrk
    exact ⟨by simp, by simp⟩
  | subslice =>
    simp only [Place.expand_one_level_others, Option.some_inj] at hrk
    subst hrk
    exact ⟨by simp, by simp⟩
  | downcast v =>
    simp only [Place.expand_one_level_others, Option.some_inj] at hrk
    subst hrk
    exact ⟨by simp, by simp⟩
  | opaqueCast =>
    simp only [Place.expand_one_level_others, Option.some_inj] at hrk
    subst hrk
    exact ⟨by simp, by simp⟩

theorem Place.expandAux_spec (Γ : Nat → Ty) (tgt : Place) :
    ∀ (n : Nat) (p : Place) (exp : List (Place × Place × ProjectionRefKind))
      (ps : List Place), Place.expandAux Γ n p tgt = some (exp, ps) →
      (∀ x ∈ ps, p.projection.length < x.projection.length) ∧ ps.Nodup := by
  intro n
  induction n with
  | zero =>
    intro p exp ps h
    injection h with h
    rw [Prod.mk.injEq] at h
    rw [← h.2]
    exact ⟨fun x hx => absurd hx (List.not_mem_nil x), List.nodup_nil⟩
  | succ m ih =>
    intro p exp ps h
    simp only [Place.expandAux, Option.bind_eq_bind] at h
    obtain ⟨r, hr, h⟩ := Option.bind_eq_some.mp h
    obtain ⟨rest2, hrest, h⟩ := Option.bind_eq_some.mp h
    injection h with h
    rw [Prod.mk.injEq] at h
    obtain ⟨hexp, hps⟩ := h
    obtain ⟨elem, helem, hnm, hsib, hsibnd⟩ :=
      Place.expand_one_level_spec Γ p tgt r.1 r.2.1 r.2.2 (by
        rw [← hr])
    obtain ⟨htail, htailnd⟩ := ih r.1 rest2.1 rest2.2 hrest
    have hr1len : r.1.projection.length = p.projection.length + 1 := by
      rw [hnm]
      simp
    have hsiblen : ∀ x ∈ r.2.1, x.projection.length = p.projection.length + 1 := by
      intro x hx
      obtain ⟨e2, he2, hne⟩ := hsib x hx
      rw [he2]
      simp
    rw [← hps]
    constructor
    · intro x hx
      rcases List.mem_append.mp hx with hx | hx
      · rw [hsiblen x hx]
        exact Nat.lt_succ_self _
      · have := htail x hx
        omega
    · refine List.Nodup.append hsibnd htailnd ?_
      intro x hx1 hx2
      have h1 := hsiblen x hx1
      have h2 := htail x hx2
      omega

theorem Place.expand_spec (Γ : Nat → Ty) (p tgt : Place)
    (exp : List (Place × Place × ProjectionRefKind)) (ps : List Place)
    (h : Place.expand Γ p tgt = some (exp, ps)) :
    Place.isPrefixOf p tgt = true ∧
    (∀ x ∈ ps, p.projection.length < x.projection.length) ∧ ps.Nodup := by
  simp only [Place.expand] at h
  split at h
  · have hspec := Place.expandAux_spec Γ tgt _ p exp ps h
    exact ⟨by assumption, hspec.1, hspec.2⟩
  · cases h

theorem Place.collapseAux_consume (Γ : Nat → Ty) :
    ∀ (stack frm : List Place) (acc : List (Place × Place × ProjectionRefKind))
      (fuel : Nat), stack.reverse = frm → frm.Nodup → frm.length + 1 ≤ fuel →
      Place.collapseAux Γ fuel acc stack frm = some (acc.reverse, []) := by
  intro stack
  induction stack with
  | nil =>
    intro frm acc fuel hrev hnd hfuel
    have hfrm : frm = [] := by rw [← hrev]; rfl
    subst hfrm
    cases fuel with
    | zero => omega
    | succ f => rfl
  | cons g rest ih =>
    intro frm acc fuel hrev hnd hfuel
    have hfrm : frm = rest.reverse ++ [g] := by rw [← hrev]; simp
    subst hfrm
    have hlen : (rest.reverse ++ [g]).length = rest.length + 1 := by simp
    cases fuel with
    | zero => omega
    | succ f =>
      have hgmem : g ∈ rest.reverse ++ [g] := by simp
      have hgnotin : g ∉ rest.reverse := by
        intro hcon
        rcases (List.nodup_append.mp hnd) with ⟨_, _, hdisj⟩
        exact hdisj hcon (List.mem_singleton.mpr rfl)
      simp only [Place.collapseAux, if_pos hgmem]
      have herase : (rest.reverse ++ [g]).erase g = rest.reverse := by
        rw [List.erase_append_right _ hgnotin]
        simp
      rw [herase]
      refine ih rest.reverse acc f (by simp) ?_ ?_
      · exact (List.nodup_append.mp hnd).1
      · have : rest.reverse.length = rest.length := by simp
        omega

theorem Place.collapseAux_step (G : Nat → Ty) (fuel : Nat)
    (collapsed : List (Place × Place × ProjectionRefKind)) (gp : Place)
    (stack frm : List Place) (eg : Place)
    (r : List (Place × Place × ProjectionRefKind) × List Place)
    (hmem : gp ∉ frm)
    (hfind : frm.find? (fun pl => Place.isPrefixOf gp pl) = some eg)
    (hexp : Place.expand G gp eg = some r) :
    Place.collapseAux G (fuel + 1) collapsed (gp :: stack) frm =
      Place.collapseAux G fuel (collapsed ++ r.1) (r.2.reverse ++ stack)
        (frm.erase eg) := by
  simp only [Place.collapseAux]
  rw [if_neg hmem]
  split
  · next heq =>
    rw [hfind] at heq
    exact Option.noConfusion heq
  · next eg2 heq =>
    rw [hfind] at heq
    injection heq with heq
    subst heq
    split
    · next h2 =>
      rw [hexp] at h2
      exact Option.noConfusion h2
    · next r2 h2 =>
      rw [hexp] at h2
      injection h2 with h2
      subst h2
      rfl

/-- Claim C8: expand/collapse round-trip.  For every place `p` and target
place `tgt`, whenever `Place::expand` from `p` toward `tgt` succeeds,
producing the expansion chain `exp` and the split-off sibling places `ps`,
`Place::collapse` of the frontier `{tgt} ∪ ps` back toward the guide `p`
succeeds, consumes exactly those places (none are left over), and performs
exactly the expansions of the chain in reverse order, rebuilding `p`. -/
theorem place_expand_collapse_round_trip (Γ : Nat → Ty) (p tgt : Place)
    (exp : List (Place × Place × ProjectionRefKind)) (ps : List Place)
    (h : Place.expand Γ p tgt = some (exp, ps)) :
    Place.collapse Γ p (tgt :: ps) = some (exp.reverse, []) := by
  obtain ⟨hpre, hlen, hnd⟩ := Place.expand_spec Γ p tgt exp ps h
  by_cases hpt : p = tgt
  · subst hpt
    have h0 : Place.expand Γ p p = some ([], []) := by
      simp [Place.expand, Place.isPrefixOf_self, Place.expandAux]
    rw [h0] at h
    injection h with h
    rw [Prod.mk.injEq] at h
    obtain ⟨he, hp⟩ := h
    subst he
    subst hp
    show Place.collapseAux Γ ([p].length + 1) [] [p] [p] = some ([], [])
    simp [Place.collapseAux, List.erase_cons_head]
  · have hnotmem : p ∉ tgt :: ps := by
      intro hmem
      rcases List.mem_cons.mp hmem with hcon | hcon
      · exact hpt hcon
      · exact absurd (hlen p hcon) (lt_irrefl _)
    have hfind : (tgt :: ps).find? (fun pl => Place.isPrefixOf p pl) = some tgt :=
      List.find?_cons_of_pos ps hpre
    show Place.collapseAux Γ ((tgt :: ps).length + 1) [] [p] (tgt :: ps) =
      some (exp.reverse, [])
    rw [List.length_cons]
    rw [Place.collapseAux_step Γ (ps.length + 1) [] p [] (tgt :: ps) tgt (exp, ps)
      hnotmem hfind h]
    rw [List.erase_cons_head, List.nil_append, List.append_nil]
    exact Place.collapseAux_consume Γ ps.reverse ps exp (ps.length + 1)
      (by simp) hnd (by omega)

/-- Witness for C8 at a concrete input: expanding local 0 (a two-field
tuple) toward its first field splits off the second field, and collapsing
the two fields back toward the root succeeds, consumes both, and rebuilds
the root. -/
theorem place_expand_collapse_round_trip_witness :
    Place.expand cexTupleTy cexRoot cexF =
      some ([(cexRoot, cexF, ProjectionRefKind.other)], [cexG]) ∧
    Place.collapse cexTupleTy cexRoot [cexF, cexG] =
      some ([(cexRoot, cexF, ProjectionRefKind.other)].reverse, []) :=
  ⟨by decide, place_expand_collapse_round_trip cexTupleTy cexRoot cexF
    [(cexRoot, cexF, ProjectionRefKind.other)] [cexG] (by decide)⟩

theorem outlivesSucc_mem (cs : List (Nat × Nat)) (current w : Nat) :
    w ∈ outlivesSucc cs current ↔ (current, w) ∈ cs := by
  simp only [outlivesSucc, List.mem_map, List.mem_filter, decide_eq_true_eq]
  constructor
  · rintro ⟨c, ⟨hc, h1⟩, rfl⟩
    rw [← h1]
    exact Prod.mk.eta ▸ hc
  · intro h
    exact ⟨(current, w), ⟨h, rfl⟩, rfl⟩

theorem outlivesGo_sound (cs : List (Nat × Nat)) (sub : Nat) :
    ∀ (visited stack : List Nat), outlivesGo cs sub visited stack = true →
      ∃ x ∈ stack, Relation.ReflTransGen (fun a b => (a, b) ∈ cs) x sub := by
  intro visited stack
  induction visited, stack using outlivesGo.induct cs sub with
  | case1 visited =>
    intro h
    simp only [outlivesGo] at h
    exact Bool.noConfusion h
  | case2 visited rest =>
    intro _
    exact ⟨sub, List.mem_cons_self sub rest, Relation.ReflTransGen.refl⟩
  | case3 visited current rest hne hvis ih =>
    intro h
    simp only [outlivesGo] at h
    rw [if_neg hne, dif_pos hvis] at h
    obtain ⟨x, hx, hr⟩ := ih h
    exact ⟨x, List.mem_cons_of_mem current hx, hr⟩
  | case4 visited current rest hne hvis ih =>
    intro h
    simp only [outlivesGo] at h
    rw [if_neg hne, dif_neg hvis] at h
    obtain ⟨x, hx, hr⟩ := ih h
    rcases List.mem_append.mp hx with hx | hx
    · rw [List.mem_reverse] at hx
      have hedge : (current, x) ∈ cs := (outlivesSucc_mem cs current x).mp hx
      exact ⟨current, List.mem_cons_self current rest,
        Relation.ReflTransGen.head hedge hr⟩
    · exact ⟨x, List.mem_cons_of_mem current hx, hr⟩

theorem reach_stays_closed (cs : List (Nat × Nat)) (S : List Nat)
    (hcl : ∀ v ∈ S, ∀ w, (v, w) ∈ cs → w ∈ S) (x y : Nat)
    (h : Relation.ReflTransGen (fun a b => (a, b) ∈ cs) x y) (hx : x ∈ S) : y ∈ S := by
  revert hx
  induction h using Relation.ReflTransGen.head_induction_on with
  | refl => exact fun hy => hy
  | head h1 h2 ih => exact fun hx => ih (hcl _ hx _ h1)

theorem outlivesGo_complete (cs : List (Nat × Nat)) (sub : Nat) :
    ∀ (visited stack : List Nat),
      outlivesGo cs sub visited stack = false →
      sub ∉ visited →
      (∀ v ∈ visited, ∀ w, (v, w) ∈ cs → w ∈ visited ∨ w ∈ stack) →
      ∀ x, x ∈ visited ∨ x ∈ stack →
      ¬ Relation.ReflTransGen (fun a b => (a, b) ∈ cs) x sub := by
  intro visited stack
  induction visited, stack using outlivesGo.induct cs sub with
  | case1 visited =>
    intro _ hsub hcl x hx hreach
    rcases hx with hx | hx
    · have hclosed : ∀ v ∈ visited, ∀ w, (v, w) ∈ cs → w ∈ visited := by
        intro v hv w hw
        rcases hcl v hv w hw with h1 | h1
        · exact h1
        · exact absurd h1 (List.not_mem_nil w)
      exact hsub (reach_stays_closed cs visited hclosed x sub hreach hx)
    · exact absurd hx (List.not_mem_nil x)
  | case2 visited rest =>
    intro h
    rw [outlivesGo, if_pos rfl] at h
    exact absurd h (by simp)
  | case3 visited current rest hne hvis ih =>
    intro h hsub hcl x hx
    simp only [outlivesGo] at h
    rw [if_neg hne, dif_pos hvis] at h
    have hcl2 : ∀ v ∈ visited, ∀ w, (v, w) ∈ cs → w ∈ visited ∨ w ∈ rest := by
      intro v hv w hw
      rcases hcl v hv w hw with h1 | h1
      · exact Or.inl h1
      · rcases List.mem_cons.mp h1 with h2 | h2
        · exact Or.inl (h2.symm ▸ hvis)
        · exact Or.inr h2
    refine ih h hsub hcl2 x ?_
    rcases hx with hx | hx
    · exact Or.inl hx
    · rcases List.mem_cons.mp hx with h2 | h2
      · exact Or.inl (h2.symm ▸ hvis)
      · exact Or.inr h2
  | case4 visited current rest hne hvis ih =>
    intro h hsub hcl x hx
    simp only [outlivesGo] at h
    rw [if_neg hne, dif_neg hvis] at h
    have hsub2 : sub ∉ current :: visited := by
      intro hc
      rcases List.mem_cons.mp hc with h1 | h1
      · exact hne h1.symm
      · exact hsub h1
    have hcl2 : ∀ v ∈ current :: visited, ∀ w, (v, w) ∈ cs →
        w ∈ current :: visited ∨ w ∈ (outlivesSucc cs current).reverse ++ rest := by
      intro v hv w hw
      rcases List.mem_cons.mp hv with h1 | h1
      · subst h1
        exact Or.inr (List.mem_append_left rest
          (List.mem_reverse.mpr ((outlivesSucc_mem cs v w).mpr hw)))
      · rcases hcl v h1 w hw with h2 | h2
        · exact Or.inl (List.mem_cons_of_mem current h2)
        · rcases List.mem_cons.mp h2 with h3 | h3
          · exact Or.inl (List.mem_cons.mpr (Or.inl h3))
          · exact Or.inr (List.mem_append_right _ h3)
    refine ih h hsub2 hcl2 x ?_
    rcases hx with hx | hx
    · exact Or.inl (List.mem_cons_of_mem current hx)
    · rcases List.mem_cons.mp hx with h1 | h1
      · exact Or.inl (List.mem_cons.mpr (Or.inl h1))
      · exact Or.inr (List.mem_append_right _ h1)

/-- Claim C6: `outlives(sup, sub)` returns `true` if and only if region
`sub` is reachable from region `sup` (including `sup = sub`, via the
reflexive case) by following the oracle's outlives-constraint edges; and
it terminates on every input, including cyclic constraint sets, because
the visited set is memoized — `outlives` is a total function, defined by a
measure that decreases at every iteration of the source's loop. -/
theorem borrowsVisitor_outlives_iff_reachable (cs : List (Nat × Nat)) (sup sub : Nat) :
    outlives cs sup sub = true ↔
      Relation.ReflTransGen (fun a b => (a, b) ∈ cs) sup sub := by
  constructor
  · intro h
    obtain ⟨x, hx, hr⟩ := outlivesGo_sound cs sub [] [sup] h
    rw [List.mem_singleton] at hx
    exact hx ▸ hr
  · intro hr
    by_contra hfalse
    rw [Bool.not_eq_true] at hfalse
    exact outlivesGo_complete cs sub [] [sup] hfalse (List.not_mem_nil sub)
      (fun v hv => absurd hv (List.not_mem_nil v)) sup
      (Or.inr (List.mem_singleton.mpr rfl)) hr
